import Mathlib

/-
Verification development for a Ford-Fulkerson max-flow engine.

The program under study keeps a mutable residual graph (a networkx DiGraph,
i.e. insertion-ordered nested dictionaries mapping node -> neighbor ->
capacity), searches it for augmenting paths with interchangeable BFS / DFS
strategies, and repeatedly pushes bottleneck flow until no augmenting path
remains, recording a history of paths and residual snapshots.

Modelling conventions:
- node identifiers are natural numbers, capacities live in a linearly
  ordered additive commutative group (the operations the code performs);
- the residual graph is an insertion-ordered association list
  (node, list of (neighbor, capacity)), mirroring the nested dicts,
  since neighbor iteration order is observable behaviour;
- Python exceptions are modelled with `Except PyErr`;
- Python's float('inf'), which the overridden find_min_capacity can
  return, is modelled by `Option` with `none` standing for infinity;
- unbounded recursion (the search loops and the augmentation loop) is
  modelled with an explicit fuel parameter; exhausting the fuel yields the
  distinguished outcome `PyErr.fuelExhausted`, so every theorem about a
  run that produced a result speaks about a run the Python code completes.
-/

set_option linter.unusedSectionVars false
set_option linter.unnecessarySeqFocus false
set_option linter.unnecessarySimpa false

namespace MaxFlowRepo

/- Capacities: the engine only ever adds, subtracts, compares and takes
minima of capacities, so it is modelled generically over a linearly ordered
additive commutative group; rational or real capacities are instances, and
concrete scenarios are evaluated over the integers. -/
variable {α : Type} [LinearOrderedAddCommGroup α]

/-- Python exception outcomes relevant to the engine, plus the fuel marker
of the embedding. -/
inductive PyErr where
  | keyError
  | valueError
  | runtimeError
  | fuelExhausted
deriving DecidableEq, Repr

/-- Adjacency of one node: insertion-ordered list of (neighbor, capacity). -/
abbrev Adj (α : Type) := List (ℕ × α)

/-- A directed capacitated graph: insertion-ordered list of
(node, adjacency), mirroring a networkx DiGraph succ structure. -/
abbrev RGraph (α : Type) := List (ℕ × Adj α)

/-- First-match lookup in an association list (dict access). -/
def lookupKey {β : Type} : List (ℕ × β) → ℕ → Option β
  | [], _ => none
  | (k, a) :: rest, u => if k = u then some a else lookupKey rest u

/-- Replace the value at the first occurrence of a key, keeping its
position; no-op when the key is absent (dict item assignment to an
existing key). -/
def setKey {β : Type} : List (ℕ × β) → ℕ → β → List (ℕ × β)
  | [], _, _ => []
  | (k, a) :: rest, u, b => if k = u then (k, b) :: rest else (k, a) :: setKey rest u b

/-- Apply a function to the value at the first occurrence of a key. -/
def mapKey {β : Type} : List (ℕ × β) → ℕ → (β → β) → List (ℕ × β)
  | [], _, _ => []
  | (k, a) :: rest, u, f => if k = u then (k, f a) :: rest else (k, a) :: mapKey rest u f

/-- Node membership (graph.has_node). -/
def hasNode (g : RGraph α) (u : ℕ) : Bool := (lookupKey g u).isSome

/-- Adjacency list of a node (graph.neighbors iteration, with capacities). -/
def neighbors (g : RGraph α) (u : ℕ) : Adj α := (lookupKey g u).getD []

/-- Capacity attribute of edge (u, v), if the edge exists. -/
def capOf (g : RGraph α) (u v : ℕ) : Option α := (lookupKey g u).bind fun adj => lookupKey adj v

/-- Edge membership (graph.has_edge). -/
def hasEdgeB (g : RGraph α) (u v : ℕ) : Bool := (capOf g u v).isSome

/-- Residual capacity read off the graph, 0 for absent edges.  Used to state
graph-theoretic properties; the code itself always accesses existing edges. -/
def resCap (g : RGraph α) (u v : ℕ) : α := (capOf g u v).getD 0

/-- graph.add_node: appends a fresh node with empty adjacency, no-op when
present. -/
def addNode (g : RGraph α) (u : ℕ) : RGraph α := if hasNode g u then g else g ++ [(u, [])]

/-- Insert or overwrite a neighbor entry; a fresh neighbor is appended at the
end (dict insertion order). -/
def insertPair (l : Adj α) (v : ℕ) (c : α) : Adj α :=
  if (lookupKey l v).isSome then setKey l v c else l ++ [(v, c)]

/-- graph.add_edge u v capacity=c: ensures both endpoints are nodes, then
sets the capacity attribute of (u, v). -/
def addEdge (g : RGraph α) (u v : ℕ) (c : α) : RGraph α :=
  mapKey (addNode (addNode g u) v) u fun adj => insertPair adj v c

/-- Overwrite the capacity of an existing edge in place. -/
def setCapRaw (g : RGraph α) (u v : ℕ) (c : α) : RGraph α :=
  mapKey g u fun adj => setKey adj v c

/-- residual_graph[u][v]["capacity"] = f(residual_graph[u][v]["capacity"]):
reads the attribute (KeyError when the edge is absent) and writes it back. -/
def modifyCap (g : RGraph α) (u v : ℕ) (f : α → α) : Except PyErr (RGraph α) :=
  match capOf g u v with
  | none => .error .keyError
  | some c => .ok (setCapRaw g u v (f c))

/-- graph.edges(data): per node in insertion order, per neighbor in
insertion order. -/
def edgesList (g : RGraph α) : List (ℕ × ℕ × α) :=
  g.flatMap fun ua => ua.2.map fun vc => (ua.1, vc.1, vc.2)

/-- MaxFlowBase.__init__ / BFSMaxFlow.__init__ / DFSMaxFlow.__init__
residual initialization: copy the input graph, then for every forward edge
(u, v) add the reverse edge (v, u) with capacity 0 unless already present. -/
def initResidual (g : RGraph α) : RGraph α :=
  (edgesList g).foldl
    (fun acc e => if hasEdgeB acc e.2.1 e.1 then acc else addEdge acc e.2.1 e.1 0) g

/-- Consecutive pairs of a path (zip(path[:-1], path[1:])). -/
def consecPairs : List ℕ → List (ℕ × ℕ)
  | u :: v :: rest => (u, v) :: consecPairs (v :: rest)
  | _ => []

/-- Flow values as produced by the overridden find_min_capacity: `none`
models Python's float('inf'). -/
abbrev Flow (α : Type) := Option α

/-- min against a finite capacity (min(min_capacity, capacity)). -/
def flowMin (f : Flow α) (c : α) : Flow α :=
  match f with
  | none => some c
  | some a => some (min a c)

/-- Addition of flow values (max_flow += flow); infinity absorbs. -/
def flowAdd (a b : Flow α) : Flow α :=
  match a, b with
  | some x, some y => some (x + y)
  | _, _ => none

/-- BFSMaxFlow.find_min_capacity / DFSMaxFlow.find_min_capacity: start from
float('inf') and take the minimum capacity over consecutive pairs of the
path; accessing a missing edge raises KeyError. -/
def findMinCapacity (g : RGraph α) (path : List ℕ) : Except PyErr (Flow α) :=
  (consecPairs path).foldlM
    (fun acc uv =>
      match capOf g uv.1 uv.2 with
      | none => .error .keyError
      | some c => .ok (flowMin acc c))
    (none : Flow α)

/-- MaxFlowBase.find_min_capacity: min() over a generator of the capacities
along the path; an empty path (fewer than two nodes) raises ValueError,
a missing edge raises KeyError at the point it is consumed. -/
def findMinCapacityBase (g : RGraph α) (path : List ℕ) : Except PyErr α :=
  match consecPairs path with
  | [] => .error .valueError
  | uv :: rest =>
    match capOf g uv.1 uv.2 with
    | none => .error .keyError
    | some c0 =>
      rest.foldlM
        (fun acc uv =>
          match capOf g uv.1 uv.2 with
          | none => .error .keyError
          | some c => .ok (min acc c))
        c0

/-- One iteration of update_residual_capacities: decrement the forward
residual capacity of the pair by the flow, increment the backward one. -/
def updStep (flow : α) (acc : RGraph α) (uv : ℕ × ℕ) : Except PyErr (RGraph α) := do
  let g1 ← modifyCap acc uv.1 uv.2 (fun c => c - flow)
  modifyCap g1 uv.2 uv.1 (fun c => c + flow)

/-- update_residual_capacities: for every consecutive pair (u, v) of the
path, decrement the forward residual capacity by the flow and increment the
backward one. -/
def updateResidual (g : RGraph α) (path : List ℕ) (flow : α) : Except PyErr (RGraph α) :=
  (consecPairs path).foldlM (updStep flow) g

/-- One neighbor-scan action of the breadth-first search: an unvisited
neighbor with positive residual capacity is appended to the queue with the
extended path and marked visited. -/
def bfsStep (path : List ℕ) (acc : List (ℕ × List ℕ) × List ℕ) (nc : ℕ × α) :
    List (ℕ × List ℕ) × List ℕ :=
  if nc.1 ∉ acc.2 ∧ 0 < nc.2 then
    (acc.1 ++ [(nc.1, path ++ [nc.1])], nc.1 :: acc.2)
  else acc

/-- BFSMaxFlow.find_augmenting_path main loop: FIFO queue of
(node, path-so-far), with a visited set updated as neighbors are enqueued.
One unit of fuel is consumed per dequeued node. -/
def bfsAux (g : RGraph α) (sink : ℕ) : ℕ → List (ℕ × List ℕ) → List ℕ →
    Except PyErr (Option (List ℕ))
  | 0, _, _ => .error .fuelExhausted
  | _ + 1, [], _ => .ok none
  | fuel + 1, (current, path) :: rest, visited =>
    if current = sink then .ok (some path)
    else
      let st := (neighbors g current).foldl (bfsStep path) (rest, visited)
      bfsAux g sink fuel st.1 st.2

/-- BFSMaxFlow.find_augmenting_path: KeyError when source or sink is not a
node, otherwise BFS from the queue [(source, [source])] with visited set
containing just the source. -/
def bfsFindPath (g : RGraph α) (source sink : ℕ) (fuel : ℕ) : Except PyErr (Option (List ℕ)) :=
  if hasNode g source ∧ hasNode g sink then
    bfsAux g sink fuel [(source, [source])] [source]
  else .error .keyError

/-- Work items of the depth-first search: visiting the last node of a path,
or scanning the remaining neighbors of the last node of a path.  The
recursive Python function interleaves these two activities; making them
explicit lets the model recurse structurally on fuel. -/
inductive DTask (α : Type) where
  | visit (path : List ℕ)
  | scan (path : List ℕ) (ns : Adj α)

/-- DFSMaxFlow.find_augmenting_path recursion: visiting a path checks its
last node against the sink, then adds it to the visited set and scans its
neighbors in adjacency order; the first neighbor that is unvisited and has
positive residual capacity is explored recursively, and a failed
exploration leaves the visited set as found (the Python code removes on
backtrack every node it added). -/
def dfsAux (g : RGraph α) (sink : ℕ) : ℕ → DTask α → List ℕ → Except PyErr (Option (List ℕ))
  | 0, _, _ => .error .fuelExhausted
  | fuel + 1, .visit path, visited =>
    match path.getLast? with
    | none => .error .keyError
    | some current =>
      if current = sink then .ok (some path)
      else dfsAux g sink fuel (.scan path (neighbors g current)) (current :: visited)
  | _ + 1, .scan _ [], _ => .ok none
  | fuel + 1, .scan path ((n, c) :: ns), visited =>
    if n ∉ visited ∧ 0 < c then
      match dfsAux g sink fuel (.visit (path ++ [n])) visited with
      | .ok none => dfsAux g sink fuel (.scan path ns) visited
      | r => r
    else dfsAux g sink fuel (.scan path ns) visited

/-- DFSMaxFlow.find_augmenting_path entry point: KeyError when source or
sink is not a node, otherwise depth-first search starting from the path
[source] with an empty visited set. -/
def dfsFindPath (g : RGraph α) (source sink : ℕ) (fuel : ℕ) : Except PyErr (Option (List ℕ)) :=
  if hasNode g source ∧ hasNode g sink then
    dfsAux g sink fuel (.visit [source]) []
  else .error .keyError

/-- Result of compute_max_flow_with_history: final flow value, augmenting
paths in discovery order, and the residual graph snapshots (initial state
first, then one after each augmentation). -/
structure HistRun (α : Type) where
  maxFlow : Flow α
  paths : List (List ℕ)
  residuals : List (RGraph α)
deriving DecidableEq

/-- A path-search strategy as seen by the Ford-Fulkerson loop. -/
abbrev Finder (α : Type) := RGraph α → ℕ → ℕ → Except PyErr (Option (List ℕ))

/-- The Ford-Fulkerson loop of compute_max_flow_with_history: repeatedly
find an augmenting path, compute its bottleneck, update the residual graph
and record history, until the finder reports no path.  When the bottleneck
is infinite the path has no consecutive pair, so the update loop body never
runs and the residual graph is recorded unchanged. -/
def ffLoopHist (find : Finder α) (source sink : ℕ) :
    ℕ → RGraph α → Flow α → List (List ℕ) → List (RGraph α) → Except PyErr (HistRun α)
  | 0, _, _, _, _ => .error .fuelExhausted
  | fuel + 1, rg, mf, paths, hist =>
    match find rg source sink with
    | .error e => .error e
    | .ok none => .ok ⟨mf, paths, hist⟩
    | .ok (some p) =>
      match findMinCapacity rg p with
      | .error e => .error e
      | .ok none =>
        ffLoopHist find source sink fuel rg (flowAdd mf none) (paths ++ [p]) (hist ++ [rg])
      | .ok (some q) =>
        match updateResidual rg p q with
        | .error e => .error e
        | .ok rg1 =>
          ffLoopHist find source sink fuel rg1 (flowAdd mf (some q)) (paths ++ [p])
            (hist ++ [rg1])

/-- The Ford-Fulkerson loop of compute_max_flow (same control flow, no
history recording). -/
def ffLoop (find : Finder α) (source sink : ℕ) : ℕ → RGraph α → Flow α → Except PyErr (Flow α)
  | 0, _, _ => .error .fuelExhausted
  | fuel + 1, rg, mf =>
    match find rg source sink with
    | .error e => .error e
    | .ok none => .ok mf
    | .ok (some p) =>
      match findMinCapacity rg p with
      | .error e => .error e
      | .ok none => ffLoop find source sink fuel rg (flowAdd mf none)
      | .ok (some q) =>
        match updateResidual rg p q with
        | .error e => .error e
        | .ok rg1 => ffLoop find source sink fuel rg1 (flowAdd mf (some q))

/-- compute_max_flow_with_history on a freshly constructed algorithm object:
initialize the residual graph from the input network, raise KeyError when
source or sink is missing, then run the loop with max_flow = 0, no paths,
and the initial residual snapshot already recorded. -/
def computeMaxFlowWithHistory (find : Finder α) (g : RGraph α) (source sink : ℕ) (fuel : ℕ) :
    Except PyErr (HistRun α) :=
  let rg0 := initResidual g
  if hasNode rg0 source ∧ hasNode rg0 sink then
    ffLoopHist find source sink fuel rg0 (some 0) [] [rg0]
  else .error .keyError

/-- compute_max_flow on a freshly constructed algorithm object. -/
def computeMaxFlow (find : Finder α) (g : RGraph α) (source sink : ℕ) (fuel : ℕ) :
    Except PyErr (Flow α) :=
  let rg0 := initResidual g
  if hasNode rg0 source ∧ hasNode rg0 sink then
    ffLoop find source sink fuel rg0 (some 0)
  else .error .keyError

/-- BFSMaxFlow with its breadth-first strategy; the search fuel is threaded
separately from the loop fuel. -/
def bfsComputeMaxFlow (g : RGraph α) (source sink : ℕ) (sfuel lfuel : ℕ) : Except PyErr (Flow α) :=
  computeMaxFlow (fun rg a b => bfsFindPath rg a b sfuel) g source sink lfuel

/-- DFSMaxFlow with its depth-first strategy. -/
def dfsComputeMaxFlow (g : RGraph α) (source sink : ℕ) (sfuel lfuel : ℕ) : Except PyErr (Flow α) :=
  computeMaxFlow (fun rg a b => dfsFindPath rg a b sfuel) g source sink lfuel

/-- BFSMaxFlow.compute_max_flow_with_history. -/
def bfsComputeMaxFlowWithHistory (g : RGraph α) (source sink : ℕ) (sfuel lfuel : ℕ) :
    Except PyErr (HistRun α) :=
  computeMaxFlowWithHistory (fun rg a b => bfsFindPath rg a b sfuel) g source sink lfuel

/-- DFSMaxFlow.compute_max_flow_with_history. -/
def dfsComputeMaxFlowWithHistory (g : RGraph α) (source sink : ℕ) (sfuel lfuel : ℕ) :
    Except PyErr (HistRun α) :=
  computeMaxFlowWithHistory (fun rg a b => dfsFindPath rg a b sfuel) g source sink lfuel


/-
MetricsTracker (src/utils/metrics.py).  The tracker owns a Python list of
visited nodes; AlgorithmMetrics snapshots returned by get_metrics carry a
reference to that very list object (the code passes self.visited without
copying), while the residual-capacity dictionary is copied by dict().  To
make the aliasing observable the model uses an explicit store of list
objects addressed by index, and values of type AlgorithmMetrics record the
store index of their visited_nodes field.  Wall-clock time is passed in
explicitly: time.time() becomes a `now` argument.
-/

/-- AlgorithmMetrics dataclass; visitedRef is the store address of the
Python list object held in the visited_nodes field. -/
structure AlgorithmMetrics (α : Type) where
  executionTime : α
  stepsCount : ℕ
  pathsFound : ℕ
  totalFlow : α
  visitedRef : ℕ
  residualCapacities : List ((ℕ × ℕ) × α)
deriving DecidableEq

/-- MetricsTracker state: start time (None until start_tracking), counters,
the store address of the visited list, the residual-capacity dictionary and
the accumulated flow. -/
structure Tracker (α : Type) where
  startTime : Option α
  steps : ℕ
  paths : ℕ
  visitedRef : ℕ
  residualCaps : List ((ℕ × ℕ) × α)
  totalFlow : α
deriving DecidableEq

/-- A tracker together with the store of Python list objects it can
reference. -/
structure World (α : Type) where
  store : List (List ℕ)
  tracker : Tracker α
deriving DecidableEq

/-- MetricsTracker.__init__: all counters zero, no start time, a fresh empty
visited list. -/
def newWorld : World α := ⟨[[]], ⟨none, 0, 0, 0, [], 0⟩⟩

/-- start_tracking: records the start time and resets every counter; the
assignment self.visited = [] binds a fresh list object. -/
def startTracking (now : α) (w : World α) : World α :=
  ⟨w.store ++ [[]],
   { startTime := some now, steps := 0, paths := 0, visitedRef := w.store.length,
     residualCaps := [], totalFlow := 0 }⟩

/-- increment_step: unconditionally increments the step counter. -/
def incrementStep (w : World α) : World α :=
  { w with tracker := { w.tracker with steps := w.tracker.steps + 1 } }

/-- add_path: unconditionally counts the path and accumulates its flow. -/
def addPath (flow : α) (w : World α) : World α :=
  { w with tracker := { w.tracker with
      paths := w.tracker.paths + 1, totalFlow := w.tracker.totalFlow + flow } }

/-- add_visited_node: mutates the visited list object in place, appending
the node unless already present. -/
def addVisitedNode (n : ℕ) (w : World α) : World α :=
  let l := w.store.getD w.tracker.visitedRef []
  { w with store := w.store.set w.tracker.visitedRef (if n ∈ l then l else l ++ [n]) }

/-- Assignment to a dictionary key: overwrite in place, or append a fresh
key at the end. -/
def dictSet (d : List ((ℕ × ℕ) × α)) (e : ℕ × ℕ) (c : α) : List ((ℕ × ℕ) × α) :=
  if d.any (fun kv => kv.1 = e) then
    d.map (fun kv => if kv.1 = e then (e, c) else kv)
  else d ++ [(e, c)]

/-- update_residual_capacity: records the capacity of an edge in the
tracker dictionary. -/
def updateResidualCapacity (e : ℕ × ℕ) (c : α) (w : World α) : World α :=
  { w with tracker := { w.tracker with residualCaps := dictSet w.tracker.residualCaps e c } }

/-- get_metrics: RuntimeError when tracking has not started; otherwise
builds an AlgorithmMetrics value.  The visited_nodes field receives the
tracker list object itself (no copy), the residual_capacities dict
is copied by dict(...); the tracker and store are untouched. -/
def getMetrics (now : α) (w : World α) : Except PyErr (AlgorithmMetrics α × World α) :=
  match w.tracker.startTime with
  | none => .error .runtimeError
  | some t0 =>
    .ok (⟨now - t0, w.tracker.steps, w.tracker.paths, w.tracker.totalFlow,
          w.tracker.visitedRef, w.tracker.residualCaps⟩, w)

/-- The visited_nodes list of a snapshot, as observed in a (possibly later)
world: it dereferences the shared list object. -/
def metricsVisited (w : World α) (m : AlgorithmMetrics α) : List ℕ :=
  w.store.getD m.visitedRef []


/-
Specification-side definitions: predicates about graphs and paths used to
state the claims.  These are not translations of program code.
-/

/-- Keys of an association list. -/
def keysOf {β : Type} (l : List (ℕ × β)) : List ℕ := l.map Prod.fst

/-- Representation well-formedness of a graph: dictionaries have no
duplicate keys and every recorded neighbor is a node.  Graphs built by
networkx operations satisfy this by construction. -/
def WF (g : RGraph α) : Prop :=
  (keysOf g).Nodup ∧ (∀ ua ∈ g, (keysOf ua.2).Nodup) ∧
    ∀ ua ∈ g, ∀ vc ∈ ua.2, hasNode g vc.1 = true

/-- Every directed edge has its reverse present (with some capacity). -/
def PairClosed (g : RGraph α) : Prop :=
  ∀ u v, hasEdgeB g u v = true → hasEdgeB g v u = true

/-- The node set of a graph as a finite set. -/
def nodesFinset (g : RGraph α) : Finset ℕ := (keysOf g).toFinset

/-- An augmenting path from s to t in the residual graph g: starts at s,
ends at t, and every consecutive pair has positive residual capacity. -/
def AugPath (g : RGraph α) (s t : ℕ) (p : List ℕ) : Prop :=
  p.head? = some s ∧ p.getLast? = some t ∧
    ∀ uv ∈ consecPairs p, 0 < resCap g uv.1 uv.2

/-- Nodes within n residual steps of s: the breadth-first distance balls. -/
def ball (g : RGraph α) (s : ℕ) : ℕ → Finset ℕ
  | 0 => {s}
  | n + 1 =>
    ball g s n ∪ (nodesFinset g).filter fun v => ∃ u ∈ ball g s n, 0 < resCap g u v

/-- v is at residual distance exactly n from s. -/
def BallMin (g : RGraph α) (s : ℕ) (v : ℕ) (n : ℕ) : Prop :=
  v ∈ ball g s n ∧ ∀ j < n, v ∉ ball g s j

/-- Net flow pushed on a directed pair, relative to the initial residual
graph: original residual capacity minus current residual capacity. -/
def netFlow (rg0 rg : RGraph α) (u v : ℕ) : α := resCap rg0 u v - resCap rg u v

/-- Net flow out of a node, summed over a node set. -/
def excessAt (V : Finset ℕ) (rg0 rg : RGraph α) (u : ℕ) : α :=
  ∑ v ∈ V, netFlow rg0 rg u v

/-- Total original capacity crossing from S to its complement in V. -/
def cutCap (V S : Finset ℕ) (rg0 : RGraph α) : α :=
  ∑ u ∈ S, ∑ v ∈ V \ S, resCap rg0 u v

/-- The residual-sum invariant: r(u,v) + r(v,u) is preserved relative to the
reference graph, for every ordered pair. -/
def SumInv (rg0 rg : RGraph α) : Prop :=
  ∀ u v, resCap rg u v + resCap rg v u = resCap rg0 u v + resCap rg0 v u

/-- All residual capacities are non-negative (absent pairs read as 0). -/
def NonNeg (rg : RGraph α) : Prop := ∀ u v, 0 ≤ resCap rg u v

/-- Flow conservation: zero net outflow at every node other than s and t. -/
def Conserved (V : Finset ℕ) (rg0 rg : RGraph α) (s t : ℕ) : Prop :=
  ∀ w ∈ V, w ≠ s → w ≠ t → excessAt V rg0 rg w = 0

/-- Soundness of a path-search strategy: a returned path is an augmenting
path from source to sink, repeats no node, and stays inside the graph. -/
def FinderSound (fin : Finder α) : Prop :=
  ∀ g s t p, WF g → fin g s t = .ok (some p) →
    AugPath g s t p ∧ p.Nodup ∧ ∀ x ∈ p, hasNode g x = true

/-- A residual cut witnessing that no augmenting path exists: contains s,
avoids t, and is closed under edges of positive residual capacity. -/
def ResCut (g : RGraph α) (s t : ℕ) (S : Finset ℕ) : Prop :=
  s ∈ S ∧ t ∉ S ∧ ∀ u ∈ S, ∀ v, 0 < resCap g u v → v ∈ S

/-- Two graphs are logically the same network: same nodes and identical
capacity function (hence identical edge sets), regardless of the order in
which nodes and edges were inserted. -/
def LogicalEq (g1 g2 : RGraph α) : Prop :=
  (∀ u, hasNode g1 u = hasNode g2 u) ∧ ∀ u v, capOf g1 u v = capOf g2 u v

/-- Properties of a queue entry (node, path) maintained by the
breadth-first search: the path is an augmenting path from the source to the
node, repeats no node, stays inside the visited set and the graph, and its
edge count is exactly the residual distance of its endpoint. -/
def EntryOK (g : RGraph α) (s : ℕ) (visited : List ℕ) (e : ℕ × List ℕ) : Prop :=
  e.2.head? = some s ∧ e.2.getLast? = some e.1 ∧
    (∀ uv ∈ consecPairs e.2, 0 < resCap g uv.1 uv.2) ∧ e.2.Nodup ∧
    (∀ x ∈ e.2, x ∈ visited ∧ hasNode g x = true) ∧
    BallMin g s e.1 (e.2.length - 1)

/-- The breadth-first search invariant: the source is visited, every queue
entry is sound and shortest, queue entries appear in nondecreasing length
order within a window of one, the sink cannot be visited without being
pending, visited splits into processed nodes (whose positive-capacity
successors are all visited) and pending queue nodes, and every node closer
to the source than the queue front is already visited. -/
def BfsInv (g : RGraph α) (s t : ℕ) (queue : List (ℕ × List ℕ)) (visited : List ℕ) : Prop :=
  s ∈ visited ∧
    (∀ e ∈ queue, EntryOK g s visited e) ∧
    List.Pairwise (fun e1 e2 : ℕ × List ℕ => e1.2.length ≤ e2.2.length) queue ∧
    (∀ e1, queue.head? = some e1 → ∀ e2 ∈ queue, e2.2.length ≤ e1.2.length + 1) ∧
    (t ∉ visited ∨ ∃ e ∈ queue, e.1 = t) ∧
    (∃ P : Finset ℕ,
      (∀ x, x ∈ visited ↔ (x ∈ P ∨ ∃ e ∈ queue, e.1 = x)) ∧
      (∀ u ∈ P, ∀ w, 0 < resCap g u w → w ∈ visited)) ∧
    (match queue.head? with
     | none => ∀ w k, BallMin g s w k → w ∈ visited
     | some e1 => ∀ w k, BallMin g s w k → k + 1 < e1.2.length → w ∈ visited)

/-- Properties of the path argument of a depth-first visit: augmenting
prefix from the source, no repeated nodes, all nodes but the last already
in the visited set, all nodes in the graph. -/
def DfsVisitOK (g : RGraph α) (s : ℕ) (visited path : List ℕ) : Prop :=
  path.head? = some s ∧ (∀ uv ∈ consecPairs path, 0 < resCap g uv.1 uv.2) ∧
    path.Nodup ∧ (∀ x ∈ path.dropLast, x ∈ visited) ∧
    ∀ x ∈ path, hasNode g x = true

/-- Properties of a depth-first neighbor scan: like a visit, with the whole
path visited and the remaining neighbor list drawn from the adjacency of
the last path node. -/
def DfsScanOK (g : RGraph α) (s current : ℕ) (visited path : List ℕ) (ns : Adj α) : Prop :=
  path.head? = some s ∧ path.getLast? = some current ∧
    (∀ uv ∈ consecPairs path, 0 < resCap g uv.1 uv.2) ∧ path.Nodup ∧
    (∀ x ∈ path, x ∈ visited) ∧ (∀ x ∈ path, hasNode g x = true) ∧
    ∀ nc ∈ ns, nc ∈ neighbors g current

/-
Concrete networks used by the scenario claims, built with the same
add_node / add_edge operations the repository uses.
-/

/-- Scenario A network: nodes 0 (source), 1, 2, 3 (sink); edges
(0,1,10), (0,2,10), (1,2,2), (1,3,4), (2,3,9). -/
def gScenA : RGraph ℤ :=
  let g := addNode (addNode (addNode (addNode ([] : RGraph ℤ) 0) 1) 2) 3
  addEdge (addEdge (addEdge (addEdge (addEdge g 0 1 10) 0 2 10) 1 2 2) 1 3 4) 2 3 9

/-- A diamond network inserted with edge order (0,1), (0,2), (1,3), (2,3). -/
def gOrd1 : RGraph ℤ :=
  let g := addNode (addNode (addNode (addNode ([] : RGraph ℤ) 0) 1) 2) 3
  addEdge (addEdge (addEdge (addEdge g 0 1 1) 0 2 1) 1 3 1) 2 3 1

/-- The same logical diamond network inserted with edge order (0,2), (0,1),
(1,3), (2,3). -/
def gOrd2 : RGraph ℤ :=
  let g := addNode (addNode (addNode (addNode ([] : RGraph ℤ) 0) 1) 2) 3
  addEdge (addEdge (addEdge (addEdge g 0 2 1) 0 1 1) 1 3 1) 2 3 1

/-- Residual graph after pushing 4 units along [0, 1, 3] in the Scenario A
residual network (for exercising the update frame property). -/
def c10res : RGraph ℤ :=
  match updateResidual (initResidual gScenA) [0, 1, 3] (4 : ℤ) with
  | .ok r => r
  | .error _ => []

/-- The run invariant threaded through the Ford-Fulkerson loop: the residual
graph is well-formed, closed under reverse edges, preserves the pairwise
capacity sums of the reference graph, stays non-negative, and keeps its
node keys. -/
def ResInv (g0 rg : RGraph α) : Prop :=
  WF rg ∧ PairClosed rg ∧ SumInv g0 rg ∧ NonNeg rg ∧ keysOf rg = keysOf g0

/-- The completed breadth-first Scenario A run (source 0, sink 3). -/
def c5run : HistRun ℤ :=
  match bfsComputeMaxFlowWithHistory gScenA 0 3 20 10 with
  | .ok r => r
  | .error _ => ⟨none, [], []⟩

/-- The final residual graph of that run. -/
def c5res : RGraph ℤ := c5run.residuals.getLast?.getD []


/-
Association-list lemmas.
-/

theorem lookupKey_isSome_iff {β : Type} (l : List (ℕ × β)) (u : ℕ) :
    (lookupKey l u).isSome = true ↔ u ∈ keysOf l := by
  induction l with
  | nil => simp [lookupKey, keysOf]
  | cons kv rest ih =>
    by_cases h : kv.1 = u
    · simp [lookupKey, keysOf, h]
    · simp only [lookupKey, keysOf, List.map_cons, List.mem_cons]
      rw [if_neg h]
      simp only [keysOf] at ih
      rw [ih]
      constructor
      · exact fun hm => Or.inr hm
      · rintro (hm | hm)
        · exact absurd hm.symm h
        · exact hm

theorem lookupKey_mem {β : Type} {l : List (ℕ × β)} {u : ℕ} {a : β}
    (h : lookupKey l u = some a) : (u, a) ∈ l := by
  induction l with
  | nil => simp [lookupKey] at h
  | cons kv rest ih =>
    obtain ⟨k, b⟩ := kv
    by_cases hk : k = u
    · simp only [lookupKey, if_pos hk, Option.some.injEq] at h
      rw [← hk, ← h]
      exact List.mem_cons_self _ _
    · simp only [lookupKey, if_neg hk] at h
      exact List.mem_cons_of_mem _ (ih h)

theorem mem_lookupKey {β : Type} {l : List (ℕ × β)} {u : ℕ} {a : β}
    (hnd : (keysOf l).Nodup) (h : (u, a) ∈ l) : lookupKey l u = some a := by
  induction l with
  | nil => simp at h
  | cons kv rest ih =>
    obtain ⟨k, b⟩ := kv
    simp only [keysOf, List.map_cons, List.nodup_cons] at hnd
    rcases List.mem_cons.mp h with h1 | h1
    · rw [← h1]
      simp [lookupKey]
    · have hne : k ≠ u := by
        intro he
        exact hnd.1 (he ▸ (List.mem_map.mpr ⟨(u, a), h1, rfl⟩))
      simp only [lookupKey, if_neg hne]
      exact ih hnd.2 h1

theorem lookupKey_mapKey {β : Type} (l : List (ℕ × β)) (u : ℕ) (f : β → β) (a : ℕ) :
    lookupKey (mapKey l u f) a =
      if a = u then (lookupKey l u).map f else lookupKey l a := by
  induction l with
  | nil => by_cases h : a = u <;> simp [mapKey, lookupKey, h]
  | cons kv rest ih =>
    obtain ⟨k, b⟩ := kv
    by_cases hk : k = u
    · by_cases ha : a = u
      · have hka : k = a := hk.trans ha.symm
        simp [mapKey, lookupKey, hk, ha, hka]
      · have hka : ¬k = a := fun he => ha (he.symm.trans hk)
        have hua : ¬u = a := fun he => ha he.symm
        simp [mapKey, lookupKey, hk, ha, hka, hua]
    · by_cases hka : k = a
      · have ha : ¬a = u := fun he => hk (hka.trans he)
        simp [mapKey, lookupKey, hk, ha, hka]
      · simp only [mapKey, if_neg hk, lookupKey, if_neg hka]
        exact ih

theorem lookupKey_setKey {β : Type} (l : List (ℕ × β)) (u : ℕ) (b : β) (a : ℕ) :
    lookupKey (setKey l u b) a =
      if a = u then (lookupKey l u).map (fun _ => b) else lookupKey l a := by
  have h : setKey l u b = mapKey l u (fun _ => b) := by
    induction l with
    | nil => simp [setKey, mapKey]
    | cons kv rest ih =>
      by_cases hk : kv.1 = u <;> simp [setKey, mapKey, hk, ih]
  rw [h, lookupKey_mapKey]

theorem keysOf_mapKey {β : Type} (l : List (ℕ × β)) (u : ℕ) (f : β → β) :
    keysOf (mapKey l u f) = keysOf l := by
  induction l with
  | nil => simp [mapKey]
  | cons kv rest ih =>
    by_cases hk : kv.1 = u <;> simp [mapKey, keysOf, hk] <;>
      simpa [keysOf] using ih

theorem keysOf_setKey {β : Type} (l : List (ℕ × β)) (u : ℕ) (b : β) :
    keysOf (setKey l u b) = keysOf l := by
  induction l with
  | nil => simp [setKey]
  | cons kv rest ih =>
    by_cases hk : kv.1 = u <;> simp [setKey, keysOf, hk] <;>
      simpa [keysOf] using ih

theorem mem_mapKey {β : Type} {l : List (ℕ × β)} {u : ℕ} {f : β → β} {e : ℕ × β}
    (h : e ∈ mapKey l u f) : e ∈ l ∨ ∃ a, (e.1, a) ∈ l ∧ e.2 = f a := by
  induction l with
  | nil => simp [mapKey] at h
  | cons kv rest ih =>
    obtain ⟨k, b⟩ := kv
    by_cases hk : k = u
    · simp only [mapKey, if_pos hk] at h
      rcases List.mem_cons.mp h with h1 | h1
      · refine Or.inr ⟨b, ?_, ?_⟩
        · rw [h1]
          exact List.mem_cons_self _ _
        · rw [h1]
      · exact Or.inl (List.mem_cons_of_mem _ h1)
    · simp only [mapKey, if_neg hk] at h
      rcases List.mem_cons.mp h with h1 | h1
      · exact Or.inl (h1 ▸ List.mem_cons_self _ _)
      · rcases ih h1 with h2 | ⟨a, ha, he⟩
        · exact Or.inl (List.mem_cons_of_mem _ h2)
        · exact Or.inr ⟨a, List.mem_cons_of_mem _ ha, he⟩

theorem mem_keysOf {β : Type} {l : List (ℕ × β)} {u : ℕ} :
    u ∈ keysOf l ↔ ∃ b, (u, b) ∈ l := by
  unfold keysOf
  constructor
  · intro h
    rcases List.mem_map.mp h with ⟨e, he, hk⟩
    refine ⟨e.2, ?_⟩
    rw [← hk]
    simpa using he
  · rintro ⟨b, hb⟩
    exact List.mem_map.mpr ⟨(u, b), hb, rfl⟩

theorem mem_setKey {β : Type} {l : List (ℕ × β)} {u : ℕ} {b : β} {e : ℕ × β}
    (h : e ∈ setKey l u b) : e ∈ l ∨ (e = (u, b) ∧ u ∈ keysOf l) := by
  induction l with
  | nil => simp [setKey] at h
  | cons kv rest ih =>
    obtain ⟨k, a⟩ := kv
    by_cases hk : k = u
    · simp only [setKey, if_pos hk] at h
      rcases List.mem_cons.mp h with h1 | h1
      · exact Or.inr ⟨by rw [h1, hk], by rw [← hk]; simp [keysOf]⟩
      · exact Or.inl (List.mem_cons_of_mem _ h1)
    · simp only [setKey, if_neg hk] at h
      rcases List.mem_cons.mp h with h1 | h1
      · exact Or.inl (h1 ▸ List.mem_cons_self _ _)
      · rcases ih h1 with h2 | ⟨h2, h3⟩
        · exact Or.inl (List.mem_cons_of_mem _ h2)
        · exact Or.inr ⟨h2, by simp [keysOf]; right; simpa [keysOf] using h3⟩


/-
Graph-operation lemmas.
-/

theorem hasNode_iff_mem {g : RGraph α} {u : ℕ} :
    hasNode g u = true ↔ u ∈ keysOf g := by
  unfold hasNode
  exact lookupKey_isSome_iff g u

theorem capOf_eq_some_iff {g : RGraph α} {u v : ℕ} {c : α} :
    capOf g u v = some c ↔ ∃ adj, lookupKey g u = some adj ∧ lookupKey adj v = some c := by
  unfold capOf
  cases h : lookupKey g u with
  | none => simp
  | some adj => simp [h]

theorem lookupKey_setCapRaw (g : RGraph α) (u v : ℕ) (c : α) (a : ℕ) :
    lookupKey (setCapRaw g u v c) a =
      if a = u then (lookupKey g u).map (fun adj => setKey adj v c) else lookupKey g a := by
  unfold setCapRaw
  exact lookupKey_mapKey g u _ a

theorem capOf_setCapRaw (g : RGraph α) (u v : ℕ) (c : α) (a b : ℕ) :
    capOf (setCapRaw g u v c) a b =
      if a = u ∧ b = v ∧ hasEdgeB g u v = true then some c else capOf g a b := by
  by_cases ha : a = u
  · subst ha
    by_cases hb : b = v
    · subst hb
      cases h : lookupKey g a with
      | none => simp [capOf, hasEdgeB, lookupKey_setCapRaw, h]
      | some adj =>
        cases h2 : lookupKey adj b with
        | none => simp [capOf, hasEdgeB, lookupKey_setCapRaw, lookupKey_setKey, h, h2]
        | some c0 => simp [capOf, hasEdgeB, lookupKey_setCapRaw, lookupKey_setKey, h, h2]
    · have hcond : ¬(a = a ∧ b = v ∧ hasEdgeB g a v = true) := fun hh => hb hh.2.1
      rw [if_neg hcond]
      cases h : lookupKey g a with
      | none => simp [capOf, lookupKey_setCapRaw, h]
      | some adj => simp [capOf, lookupKey_setCapRaw, lookupKey_setKey, h, hb]
  · have hcond : ¬(a = u ∧ b = v ∧ hasEdgeB g u v = true) := fun hh => ha hh.1
    have h1 : lookupKey (setCapRaw g u v c) a = lookupKey g a := by
      rw [lookupKey_setCapRaw, if_neg ha]
    rw [if_neg hcond]
    simp [capOf, h1]

theorem keysOf_setCapRaw (g : RGraph α) (u v : ℕ) (c : α) :
    keysOf (setCapRaw g u v c) = keysOf g := by
  unfold setCapRaw
  exact keysOf_mapKey g u _

theorem hasNode_setCapRaw (g : RGraph α) (u v : ℕ) (c : α) (a : ℕ) :
    hasNode (setCapRaw g u v c) a = hasNode g a := by
  unfold hasNode
  rw [lookupKey_setCapRaw]
  by_cases ha : a = u
  · subst ha
    cases h : lookupKey g a <;> simp [h]
  · simp [ha]

theorem adjKeys_setCapRaw (g : RGraph α) (u v : ℕ) (c : α) (a : ℕ) :
    keysOf (neighbors (setCapRaw g u v c) a) = keysOf (neighbors g a) := by
  unfold neighbors
  rw [lookupKey_setCapRaw]
  by_cases ha : a = u
  · subst ha
    cases h : lookupKey g a with
    | none => simp
    | some adj => simp [keysOf_setKey]
  · simp [ha]

theorem WF_setCapRaw {g : RGraph α} (u v : ℕ) (c : α) (hg : WF g) :
    WF (setCapRaw g u v c) := by
  obtain ⟨h1, h2, h3⟩ := hg
  refine ⟨keysOf_setCapRaw g u v c ▸ h1, ?_, ?_⟩
  · intro ua hua
    rcases mem_mapKey hua with hm | ⟨adj, hadj, he⟩
    · exact h2 ua hm
    · rw [he, keysOf_setKey]
      exact h2 (ua.1, adj) hadj
  · intro ua hua vc hvc
    rw [hasNode_setCapRaw]
    rcases mem_mapKey hua with hm | ⟨adj, hadj, he⟩
    · exact h3 ua hm vc hvc
    · rw [he] at hvc
      rcases mem_setKey hvc with hm2 | ⟨hm2, hm3⟩
      · exact h3 (ua.1, adj) hadj vc hm2
      · rcases mem_keysOf.mp hm3 with ⟨cv, hcv⟩
        rw [hm2]
        exact h3 (ua.1, adj) hadj (v, cv) hcv

theorem modifyCap_ok_iff {g g1 : RGraph α} {u v : ℕ} {f : α → α} :
    modifyCap g u v f = .ok g1 ↔
      ∃ c, capOf g u v = some c ∧ g1 = setCapRaw g u v (f c) := by
  unfold modifyCap
  cases h : capOf g u v with
  | none => simp
  | some c =>
    constructor
    · intro he
      exact ⟨c, rfl, by cases he; rfl⟩
    · rintro ⟨c2, hc2, hg⟩
      rw [Option.some.injEq] at hc2
      rw [hg, hc2]


/-
add_node / add_edge lemmas.
-/

theorem lookupKey_append_some {β : Type} {l1 l2 : List (ℕ × β)} {u : ℕ} {a : β}
    (h : lookupKey l1 u = some a) : lookupKey (l1 ++ l2) u = some a := by
  induction l1 with
  | nil => simp [lookupKey] at h
  | cons kv rest ih =>
    obtain ⟨k, b⟩ := kv
    by_cases hk : k = u
    · simp_all [lookupKey, hk]
    · simp only [List.cons_append, lookupKey, if_neg hk] at h ⊢
      exact ih h

theorem lookupKey_append_none {β : Type} {l1 l2 : List (ℕ × β)} {u : ℕ}
    (h : lookupKey l1 u = none) : lookupKey (l1 ++ l2) u = lookupKey l2 u := by
  induction l1 with
  | nil => simp
  | cons kv rest ih =>
    obtain ⟨k, b⟩ := kv
    by_cases hk : k = u
    · simp [lookupKey, hk] at h
    · simp only [List.cons_append, lookupKey, if_neg hk] at h ⊢
      exact ih h

theorem capOf_addNode (g : RGraph α) (w a b : ℕ) :
    capOf (addNode g w) a b = capOf g a b := by
  unfold addNode
  by_cases h : hasNode g w = true
  · rw [if_pos h]
  · rw [if_neg h]
    unfold capOf
    cases hl : lookupKey g a with
    | some adj => rw [lookupKey_append_some hl]
    | none =>
      rw [lookupKey_append_none hl]
      by_cases haw : w = a
      · simp [lookupKey, haw]
      · simp [lookupKey, haw]

theorem hasNode_addNode (g : RGraph α) (w a : ℕ) :
    hasNode (addNode g w) a = true ↔ (hasNode g a = true ∨ a = w) := by
  unfold addNode
  by_cases h : hasNode g w = true
  · rw [if_pos h]
    constructor
    · exact fun hh => Or.inl hh
    · rintro (hh | hh)
      · exact hh
      · rwa [hh]
  · rw [if_neg h]
    unfold hasNode
    cases hl : lookupKey g a with
    | some adj => simp [lookupKey_append_some hl, hl]
    | none =>
      rw [lookupKey_append_none hl]
      by_cases haw : w = a
      · subst haw
        simp [lookupKey, hl]
      · have hlk : lookupKey ([(w, ([] : Adj α))]) a = none := by
          simp [lookupKey, haw]
        rw [hlk]
        have haw2 : ¬a = w := fun hh => haw hh.symm
        simp [haw2]

theorem lookupKey_insertPair (l : Adj α) (v : ℕ) (c : α) (b : ℕ) :
    lookupKey (insertPair l v c) b = if b = v then some c else lookupKey l b := by
  unfold insertPair
  by_cases h : (lookupKey l v).isSome = true
  · rw [if_pos h]
    rw [lookupKey_setKey]
    by_cases hb : b = v
    · subst hb
      cases hl : lookupKey l b with
      | none => rw [hl] at h; simp at h
      | some c0 => simp [hl]
    · simp [hb]
  · rw [if_neg h]
    have hnone : lookupKey l v = none := by
      cases hl : lookupKey l v with
      | none => rfl
      | some c0 => rw [hl] at h; simp at h
    by_cases hb : b = v
    · subst hb
      rw [lookupKey_append_none hnone]
      simp [lookupKey]
    · cases hl : lookupKey l b with
      | some c0 => simp [lookupKey_append_some hl, hb]
      | none =>
        rw [lookupKey_append_none hl]
        have hvb : ¬v = b := fun hh => hb hh.symm
        simp [lookupKey, hvb, hb]

theorem keysOf_addEdge (g : RGraph α) (u v : ℕ) (c : α) :
    keysOf (addEdge g u v c) = keysOf (addNode (addNode g u) v) := by
  unfold addEdge
  exact keysOf_mapKey _ u _

theorem hasNode_addEdge (g : RGraph α) (u v : ℕ) (c : α) (a : ℕ) :
    hasNode (addEdge g u v c) a = true ↔ (hasNode g a = true ∨ a = u ∨ a = v) := by
  rw [hasNode_iff_mem, keysOf_addEdge, ← hasNode_iff_mem, hasNode_addNode, hasNode_addNode]
  tauto

theorem hasNode_addEdge_left (g : RGraph α) (u v : ℕ) (c : α) :
    hasNode (addEdge g u v c) u = true :=
  (hasNode_addEdge g u v c u).mpr (Or.inr (Or.inl rfl))

theorem hasNode_addEdge_right (g : RGraph α) (u v : ℕ) (c : α) :
    hasNode (addEdge g u v c) v = true :=
  (hasNode_addEdge g u v c v).mpr (Or.inr (Or.inr rfl))

theorem capOf_addEdge (g : RGraph α) (u v : ℕ) (c : α) (a b : ℕ) :
    capOf (addEdge g u v c) a b = if a = u ∧ b = v then some c else capOf g a b := by
  unfold addEdge
  have hg2 : ∀ x y, capOf (addNode (addNode g u) v) x y = capOf g x y := by
    intro x y
    rw [capOf_addNode, capOf_addNode]
  have hu : hasNode (addNode (addNode g u) v) u = true := by
    rw [hasNode_addNode, hasNode_addNode]
    tauto
  unfold hasNode at hu
  rcases Option.isSome_iff_exists.mp hu with ⟨adj, hadj⟩
  by_cases ha : a = u
  · subst ha
    have hlk : lookupKey (mapKey (addNode (addNode g a) v) a
        fun adj => insertPair adj v c) a = some (insertPair adj v c) := by
      rw [lookupKey_mapKey, if_pos rfl, hadj]
      rfl
    have hco : capOf (mapKey (addNode (addNode g a) v) a
        fun adj => insertPair adj v c) a b = lookupKey (insertPair adj v c) b := by
      unfold capOf
      rw [hlk]
      rfl
    rw [hco, lookupKey_insertPair]
    by_cases hb : b = v
    · subst hb
      rw [if_pos rfl, if_pos ⟨rfl, rfl⟩]
    · rw [if_neg hb, if_neg (fun hh : _ = _ ∧ b = v => hb hh.2)]
      rw [← hg2 a b]
      unfold capOf
      rw [hadj]
      rfl
  · have hlk : lookupKey (mapKey (addNode (addNode g u) v) u
        fun adj => insertPair adj v c) a = lookupKey (addNode (addNode g u) v) a := by
      rw [lookupKey_mapKey, if_neg ha]
    have hco : capOf (mapKey (addNode (addNode g u) v) u
        fun adj => insertPair adj v c) a b = capOf (addNode (addNode g u) v) a b := by
      unfold capOf
      rw [hlk]
    rw [if_neg (fun hh : a = u ∧ b = v => ha hh.1), hco, hg2]


theorem mem_insertPair {l : Adj α} {v : ℕ} {c : α} {e : ℕ × α}
    (h : e ∈ insertPair l v c) : e ∈ l ∨ e = (v, c) := by
  unfold insertPair at h
  by_cases hp : (lookupKey l v).isSome = true
  · rw [if_pos hp] at h
    rcases mem_setKey h with h1 | ⟨h1, _⟩
    · exact Or.inl h1
    · exact Or.inr h1
  · rw [if_neg hp] at h
    rcases List.mem_append.mp h with h1 | h1
    · exact Or.inl h1
    · exact Or.inr (by simpa using h1)

theorem WF_addNode {g : RGraph α} (w : ℕ) (hg : WF g) : WF (addNode g w) := by
  obtain ⟨h1, h2, h3⟩ := hg
  unfold addNode
  by_cases h : hasNode g w = true
  · rw [if_pos h]
    exact ⟨h1, h2, h3⟩
  · rw [if_neg h]
    refine ⟨?_, ?_, ?_⟩
    · have hw : w ∉ keysOf g := fun hm => h (hasNode_iff_mem.mpr hm)
      simp only [keysOf, List.map_append, List.map_cons, List.map_nil]
      rw [List.nodup_append]
      exact ⟨h1, List.nodup_singleton w, by simpa [keysOf, List.disjoint_singleton] using hw⟩
    · intro ua hua
      rcases List.mem_append.mp hua with hm | hm
      · exact h2 ua hm
      · have : ua = (w, []) := by simpa using hm
        rw [this]
        simp [keysOf]
    · intro ua hua vc hvc
      rcases List.mem_append.mp hua with hm | hm
      · have := h3 ua hm vc hvc
        have hn : hasNode (addNode g w) vc.1 = true :=
          (hasNode_addNode g w vc.1).mpr (Or.inl this)
        unfold addNode at hn
        rwa [if_neg h] at hn
      · have : ua = (w, []) := by simpa using hm
        rw [this] at hvc
        simp at hvc

theorem WF_addEdge {g : RGraph α} (u v : ℕ) (c : α) (hg : WF g) :
    WF (addEdge g u v c) := by
  have hg2 : WF (addNode (addNode g u) v) := WF_addNode v (WF_addNode u hg)
  obtain ⟨h1, h2, h3⟩ := hg2
  have hkeys : ∀ x, hasNode (addEdge g u v c) x = true ↔
      hasNode (addNode (addNode g u) v) x = true := by
    intro x
    rw [hasNode_iff_mem, keysOf_addEdge, ← hasNode_iff_mem]
  refine ⟨?_, ?_, ?_⟩
  · rw [keysOf_addEdge]
    exact h1
  · intro ua hua
    rcases mem_mapKey hua with hm | ⟨adj, hadj, he⟩
    · exact h2 ua hm
    · rw [he]
      unfold insertPair
      by_cases hp : (lookupKey adj v).isSome = true
      · rw [if_pos hp, keysOf_setKey]
        exact h2 (ua.1, adj) hadj
      · rw [if_neg hp]
        have hnd : (keysOf adj).Nodup := h2 (ua.1, adj) hadj
        have hv : v ∉ keysOf adj := fun hm2 => hp ((lookupKey_isSome_iff adj v).mpr hm2)
        simp only [keysOf, List.map_append, List.map_cons, List.map_nil]
        rw [List.nodup_append]
        exact ⟨hnd, List.nodup_singleton v,
          by simpa [keysOf, List.disjoint_singleton] using hv⟩
  · intro ua hua vc hvc
    rcases mem_mapKey hua with hm | ⟨adj, hadj, he⟩
    · exact (hkeys vc.1).mpr (h3 ua hm vc hvc)
    · rw [he] at hvc
      rcases mem_insertPair hvc with hm2 | hm2
      · exact (hkeys vc.1).mpr (h3 (ua.1, adj) hadj vc hm2)
      · rw [hm2]
        refine (hkeys v).mpr ?_
        rw [hasNode_addNode]
        exact Or.inr rfl

theorem mem_edgesList {g : RGraph α} (hg : WF g) (u v : ℕ) (c : α) :
    (u, v, c) ∈ edgesList g ↔ capOf g u v = some c := by
  constructor
  · intro h
    rcases List.mem_flatMap.mp h with ⟨ua, hua, hm⟩
    rcases List.mem_map.mp hm with ⟨vc, hvc, he⟩
    have he1 : ua.1 = u := congrArg Prod.fst he
    have he2 : vc.1 = v := congrArg (fun x => x.2.1) he
    have he3 : vc.2 = c := congrArg (fun x => x.2.2) he
    have hl1 : lookupKey g u = some ua.2 := by
      rw [← he1]
      exact mem_lookupKey hg.1 (by
        obtain ⟨k, adj⟩ := ua
        exact hua)
    have hl2 : lookupKey ua.2 v = some c := by
      rw [← he2, ← he3]
      exact mem_lookupKey (hg.2.1 ua hua) (by
        obtain ⟨k2, c2⟩ := vc
        exact hvc)
    unfold capOf
    rw [hl1]
    simpa using hl2
  · intro h
    rcases capOf_eq_some_iff.mp h with ⟨adj, hadj, hv⟩
    exact List.mem_flatMap.mpr ⟨(u, adj), lookupKey_mem hadj,
      List.mem_map.mpr ⟨(v, c), lookupKey_mem hv, rfl⟩⟩


/-
initResidual characterization.
-/

/-- Content description of an intermediate state of the reverse-edge
initialization: every pair either still holds its original capacity, or is
an added reverse edge of capacity 0. -/
def InitInv (g acc : RGraph α) : Prop :=
  ∀ a b, capOf acc a b = capOf g a b ∨
    (capOf g a b = none ∧ hasEdgeB g b a = true ∧ capOf acc a b = some 0)

theorem hasEdgeB_eq_false_iff {g : RGraph α} {u v : ℕ} :
    hasEdgeB g u v = false ↔ capOf g u v = none := by
  unfold hasEdgeB
  cases h : capOf g u v <;> simp

theorem capOf_some_hasNode {g : RGraph α} {u v : ℕ} {c : α} (h : capOf g u v = some c) :
    hasNode g u = true := by
  rcases capOf_eq_some_iff.mp h with ⟨adj, hadj, _⟩
  unfold hasNode
  rw [hadj]
  rfl

theorem capOf_some_hasNode_right {g : RGraph α} (hg : WF g) {u v : ℕ} {c : α}
    (h : capOf g u v = some c) : hasNode g v = true := by
  rcases capOf_eq_some_iff.mp h with ⟨adj, hadj, hv⟩
  exact hg.2.2 (u, adj) (lookupKey_mem hadj) (v, c) (lookupKey_mem hv)

theorem initFold (g : RGraph α) (hg : WF g) :
    ∀ (es : List (ℕ × ℕ × α)) (acc : RGraph α),
      (∀ e ∈ es, capOf g e.1 e.2.1 = some e.2.2) →
      (∀ a, hasNode acc a = true ↔ hasNode g a = true) →
      WF acc → InitInv g acc →
      (∀ a, hasNode (es.foldl
          (fun acc2 e => if hasEdgeB acc2 e.2.1 e.1 then acc2 else addEdge acc2 e.2.1 e.1 0)
          acc) a = true ↔ hasNode g a = true) ∧
      WF (es.foldl
          (fun acc2 e => if hasEdgeB acc2 e.2.1 e.1 then acc2 else addEdge acc2 e.2.1 e.1 0)
          acc) ∧
      InitInv g (es.foldl
          (fun acc2 e => if hasEdgeB acc2 e.2.1 e.1 then acc2 else addEdge acc2 e.2.1 e.1 0)
          acc) ∧
      (∀ a b, hasEdgeB acc a b = true → hasEdgeB (es.foldl
          (fun acc2 e => if hasEdgeB acc2 e.2.1 e.1 then acc2 else addEdge acc2 e.2.1 e.1 0)
          acc) a b = true) ∧
      (∀ e ∈ es, hasEdgeB (es.foldl
          (fun acc2 e => if hasEdgeB acc2 e.2.1 e.1 then acc2 else addEdge acc2 e.2.1 e.1 0)
          acc) e.2.1 e.1 = true) := by
  intro es
  induction es with
  | nil =>
    intro acc _ hnode hwf hinv
    refine ⟨hnode, hwf, hinv, fun a b h => h, fun e he => absurd he (List.not_mem_nil e)⟩
  | cons e0 rest ih =>
    intro acc hes hnode hwf hinv
    obtain ⟨u, v, c⟩ := e0
    have he0 : capOf g u v = some c := hes (u, v, c) (List.mem_cons_self _ _)
    simp only [List.foldl_cons]
    by_cases hrev : hasEdgeB acc v u = true
    · rw [if_pos hrev]
      have hrest := ih acc (fun e he => hes e (List.mem_cons_of_mem _ he)) hnode hwf hinv
      refine ⟨hrest.1, hrest.2.1, hrest.2.2.1, hrest.2.2.2.1, ?_⟩
      intro e he
      rcases List.mem_cons.mp he with h1 | h1
      · rw [h1]
        exact hrest.2.2.2.1 v u hrev
      · exact hrest.2.2.2.2 e h1
    · rw [if_neg hrev]
      -- the reverse edge (v, u) is added with capacity 0
      have hnv : hasNode acc v = true :=
        (hnode v).mpr (capOf_some_hasNode_right hg he0)
      have hnu : hasNode acc u = true := (hnode u).mpr (capOf_some_hasNode he0)
      have hone : hasEdgeB acc v u = false := by
        cases hb : hasEdgeB acc v u
        · rfl
        · exact absurd hb hrev
      have hcap : capOf acc v u = none := hasEdgeB_eq_false_iff.mp hone
      have hgvu : capOf g v u = none := by
        rcases hinv v u with h1 | ⟨h1, _, _⟩
        · rw [← h1]
          exact hcap
        · exact h1
      have hnode2 : ∀ a, hasNode (addEdge acc v u 0) a = true ↔ hasNode g a = true := by
        intro a
        rw [hasNode_addEdge]
        constructor
        · rintro (h1 | h1 | h1)
          · exact (hnode a).mp h1
          · rw [h1]
            exact (hnode v).mp hnv
          · rw [h1]
            exact (hnode u).mp hnu
        · exact fun h1 => Or.inl ((hnode a).mpr h1)
      have hwf2 : WF (addEdge acc v u 0) := WF_addEdge v u 0 hwf
      have hinv2 : InitInv g (addEdge acc v u 0) := by
        intro a b
        rw [capOf_addEdge]
        by_cases hab : a = v ∧ b = u
        · rw [if_pos hab]
          right
          rw [hab.1, hab.2]
          refine ⟨hgvu, ?_, rfl⟩
          unfold hasEdgeB
          rw [he0]
          rfl
        · rw [if_neg hab]
          exact hinv a b
      have hrest := ih (addEdge acc v u 0)
        (fun e he => hes e (List.mem_cons_of_mem _ he)) hnode2 hwf2 hinv2
      refine ⟨hrest.1, hrest.2.1, hrest.2.2.1, ?_, ?_⟩
      · intro a b hab
        refine hrest.2.2.2.1 a b ?_
        unfold hasEdgeB at hab ⊢
        rw [capOf_addEdge]
        by_cases h2 : a = v ∧ b = u
        · rw [if_pos h2]
          rfl
        · rw [if_neg h2]
          exact hab
      · intro e he
        rcases List.mem_cons.mp he with h1 | h1
        · rw [h1]
          refine hrest.2.2.2.1 v u ?_
          unfold hasEdgeB
          rw [capOf_addEdge, if_pos ⟨rfl, rfl⟩]
          rfl
        · exact hrest.2.2.2.2 e h1

theorem initResidual_props (g : RGraph α) (hg : WF g) :
    (∀ a, hasNode (initResidual g) a = true ↔ hasNode g a = true) ∧
    WF (initResidual g) ∧ InitInv g (initResidual g) ∧
    (∀ u v c, capOf g u v = some c → hasEdgeB (initResidual g) v u = true) := by
  have hes : ∀ e ∈ edgesList g, capOf g e.1 e.2.1 = some e.2.2 := by
    intro e he
    obtain ⟨u, v, c⟩ := e
    exact (mem_edgesList hg u v c).mp he
  have h := initFold g hg (edgesList g) g hes (fun a => Iff.rfl) hg (fun a b => Or.inl rfl)
  exact ⟨h.1, h.2.1, h.2.2.1, fun u v c hc =>
    h.2.2.2.2 (u, v, c) ((mem_edgesList hg u v c).mpr hc)⟩

theorem initResidual_capOf_of_edge {g : RGraph α} (hg : WF g) {u v : ℕ} {c : α}
    (h : capOf g u v = some c) : capOf (initResidual g) u v = some c := by
  rcases (initResidual_props g hg).2.2.1 u v with h1 | ⟨h1, _, _⟩
  · rw [h1, h]
  · rw [h] at h1
    simp at h1

theorem initResidual_pairClosed {g : RGraph α} (hg : WF g) :
    PairClosed (initResidual g) := by
  intro a b hab
  unfold hasEdgeB at hab
  rcases Option.isSome_iff_exists.mp hab with ⟨c, hc⟩
  rcases (initResidual_props g hg).2.2.1 a b with h1 | ⟨_, h2, _⟩
  · rw [h1] at hc
    have := (initResidual_props g hg).2.2.2 a b c hc
    exact this
  · rcases Option.isSome_iff_exists.mp h2 with ⟨c2, hc2⟩
    unfold hasEdgeB
    rw [initResidual_capOf_of_edge hg hc2]
    rfl

theorem initResidual_sum {g : RGraph α} (hg : WF g) (u v : ℕ) :
    resCap (initResidual g) u v + resCap (initResidual g) v u =
      resCap g u v + resCap g v u := by
  rcases (initResidual_props g hg).2.2.1 u v with h1 | ⟨h1, _, h3⟩ <;>
    rcases (initResidual_props g hg).2.2.1 v u with h4 | ⟨h4, _, h6⟩
  · rw [resCap, resCap, resCap, resCap, h1, h4]
  · rw [resCap, resCap, resCap, resCap, h1, h6, h4]
    simp
  · rw [resCap, resCap, resCap, resCap, h3, h1, h4]
    simp
  · rw [resCap, resCap, resCap, resCap, h3, h6, h1, h4]
    simp

theorem initResidual_nonneg {g : RGraph α} (hg : WF g) (hnn : NonNeg g) :
    NonNeg (initResidual g) := by
  intro u v
  rcases (initResidual_props g hg).2.2.1 u v with h1 | ⟨_, _, h3⟩
  · rw [resCap, h1]
    exact hnn u v
  · rw [resCap, h3]
    simp


/-
update_residual_capacities lemmas.
-/

theorem updStep_ok_elim {flow : α} {g g1 : RGraph α} {u v : ℕ}
    (h : updStep flow g (u, v) = .ok g1) :
    ∃ c1 c2, capOf g u v = some c1 ∧
      capOf (setCapRaw g u v (c1 - flow)) v u = some c2 ∧
      g1 = setCapRaw (setCapRaw g u v (c1 - flow)) v u (c2 + flow) := by
  unfold updStep at h
  cases h1 : modifyCap g u v (fun c => c - flow) with
  | error e => rw [h1] at h; exact absurd h (by simp [Bind.bind, Except.bind])
  | ok ga =>
    rw [h1] at h
    simp only [Bind.bind, Except.bind] at h
    rcases modifyCap_ok_iff.mp h1 with ⟨c1, hc1, hga⟩
    rcases modifyCap_ok_iff.mp h with ⟨c2, hc2, hg1⟩
    subst hga
    exact ⟨c1, c2, hc1, hc2, hg1⟩

theorem capOf_setCapRaw_isSome (g : RGraph α) (u v : ℕ) (c : α) (a b : ℕ) :
    (capOf (setCapRaw g u v c) a b).isSome = (capOf g a b).isSome := by
  rw [capOf_setCapRaw]
  by_cases h : a = u ∧ b = v ∧ hasEdgeB g u v = true
  · rw [if_pos h]
    obtain ⟨h1, h2, h3⟩ := h
    subst h1; subst h2
    unfold hasEdgeB at h3
    rw [h3]
    rfl
  · rw [if_neg h]

theorem updStep_isSome {flow : α} {g g1 : RGraph α} {uv : ℕ × ℕ}
    (h : updStep flow g uv = .ok g1) (a b : ℕ) :
    (capOf g1 a b).isSome = (capOf g a b).isSome := by
  obtain ⟨u, v⟩ := uv
  rcases updStep_ok_elim h with ⟨c1, c2, _, _, hg1⟩
  rw [hg1, capOf_setCapRaw_isSome, capOf_setCapRaw_isSome]

theorem updStep_frame {flow : α} {g g1 : RGraph α} {u v : ℕ}
    (h : updStep flow g (u, v) = .ok g1) (a b : ℕ)
    (h1 : ¬(a = u ∧ b = v)) (h2 : ¬(a = v ∧ b = u)) :
    capOf g1 a b = capOf g a b := by
  rcases updStep_ok_elim h with ⟨c1, c2, _, _, hg1⟩
  rw [hg1, capOf_setCapRaw, if_neg (fun hh => h2 ⟨hh.1, hh.2.1⟩),
    capOf_setCapRaw, if_neg (fun hh => h1 ⟨hh.1, hh.2.1⟩)]

theorem updStep_forward {flow : α} {g g1 : RGraph α} {u v : ℕ} (huv : u ≠ v)
    (h : updStep flow g (u, v) = .ok g1) :
    capOf g1 u v = (capOf g u v).map (fun c => c - flow) := by
  rcases updStep_ok_elim h with ⟨c1, c2, hc1, _, hg1⟩
  rw [hg1, capOf_setCapRaw, if_neg (fun hh : u = v ∧ _ => huv hh.1),
    capOf_setCapRaw, if_pos ⟨rfl, rfl, by unfold hasEdgeB; rw [hc1]; rfl⟩, hc1]
  rfl

theorem updStep_backward {flow : α} {g g1 : RGraph α} {u v : ℕ} (huv : u ≠ v)
    (h : updStep flow g (u, v) = .ok g1) :
    capOf g1 v u = (capOf g v u).map (fun c => c + flow) := by
  rcases updStep_ok_elim h with ⟨c1, c2, hc1, hc2, hg1⟩
  have hc2g : capOf g v u = some c2 := by
    rw [← hc2, capOf_setCapRaw, if_neg (fun hh : v = u ∧ _ => huv hh.1.symm)]
  rw [hg1, capOf_setCapRaw, if_pos ⟨rfl, rfl, by unfold hasEdgeB; rw [hc2]; rfl⟩, hc2g]
  rfl

theorem foldlM_except_cons {σ β : Type} (f : σ → β → Except PyErr σ)
    (g : σ) (x : β) (L : List β) :
    (x :: L).foldlM f g =
      match f g x with
      | .error e => .error e
      | .ok g1 => L.foldlM f g1 := by
  rw [List.foldlM_cons]
  cases f g x with
  | error e =>
    simp [Bind.bind, Except.bind]
  | ok g1 =>
    simp [Bind.bind, Except.bind]

theorem updPairs_frame {flow : α} :
    ∀ (L : List (ℕ × ℕ)) {g g1 : RGraph α}, L.foldlM (updStep flow) g = .ok g1 →
      ∀ a b, (a, b) ∉ L → (b, a) ∉ L → capOf g1 a b = capOf g a b := by
  intro L
  induction L with
  | nil =>
    intro g g1 h a b _ _
    cases h
    rfl
  | cons uv rest ih =>
    intro g g1 h a b hab hba
    rw [foldlM_except_cons] at h
    cases hs : updStep flow g uv with
    | error e => rw [hs] at h; exact absurd h (by simp)
    | ok ga =>
      rw [hs] at h
      obtain ⟨u, v⟩ := uv
      have hf : capOf ga a b = capOf g a b := by
        refine updStep_frame hs a b ?_ ?_
        · rintro ⟨rfl, rfl⟩
          exact hab (List.mem_cons_self _ _)
        · rintro ⟨rfl, rfl⟩
          exact hba (List.mem_cons_self _ _)
      rw [← hf]
      exact ih h a b (fun hm => hab (List.mem_cons_of_mem _ hm))
        (fun hm => hba (List.mem_cons_of_mem _ hm))

theorem updPairs_isSome {flow : α} :
    ∀ (L : List (ℕ × ℕ)) {g g1 : RGraph α}, L.foldlM (updStep flow) g = .ok g1 →
      ∀ a b, (capOf g1 a b).isSome = (capOf g a b).isSome := by
  intro L
  induction L with
  | nil =>
    intro g g1 h a b
    cases h
    rfl
  | cons uv rest ih =>
    intro g g1 h a b
    rw [foldlM_except_cons] at h
    cases hs : updStep flow g uv with
    | error e => rw [hs] at h; exact absurd h (by simp)
    | ok ga =>
      rw [hs] at h
      rw [ih h a b, updStep_isSome hs a b]


theorem mem_consecPairs :
    ∀ {p : List ℕ} {uv : ℕ × ℕ}, uv ∈ consecPairs p → uv.1 ∈ p ∧ uv.2 ∈ p.tail
  | [], uv, h => absurd h (by simp [consecPairs])
  | [u], uv, h => absurd h (by simp [consecPairs])
  | u :: v :: rest, uv, h => by
    rw [consecPairs] at h
    show uv.1 ∈ u :: v :: rest ∧ uv.2 ∈ v :: rest
    rcases List.mem_cons.mp h with h1 | h1
    · rw [h1]
      exact ⟨List.mem_cons_self _ _, List.mem_cons_self _ _⟩
    · have := mem_consecPairs h1
      have h2 : uv.2 ∈ rest := by simpa using this.2
      exact ⟨List.mem_cons_of_mem _ this.1, List.mem_cons_of_mem _ h2⟩

theorem mem_consecPairs_mem {p : List ℕ} {uv : ℕ × ℕ} (h : uv ∈ consecPairs p) :
    uv.1 ∈ p ∧ uv.2 ∈ p :=
  ⟨(mem_consecPairs h).1, List.mem_of_mem_tail (mem_consecPairs h).2⟩

theorem updateResidual_cons (g : RGraph α) (u v : ℕ) (rest : List ℕ) (flow : α) :
    updateResidual g (u :: v :: rest) flow =
      match updStep flow g (u, v) with
      | .error e => .error e
      | .ok g1 => updateResidual g1 (v :: rest) flow := by
  unfold updateResidual
  rw [consecPairs, foldlM_except_cons]
  cases updStep flow g (u, v) <;> rfl

theorem updateResidual_capOf {flow : α} :
    ∀ (p : List ℕ) {g g1 : RGraph α}, p.Nodup → updateResidual g p flow = .ok g1 →
      ∀ a b, capOf g1 a b =
        if (a, b) ∈ consecPairs p then (capOf g a b).map (fun c => c - flow)
        else if (b, a) ∈ consecPairs p then (capOf g a b).map (fun c => c + flow)
        else capOf g a b
  | [], g, g1, _, h => by
    cases h
    intro a b
    simp [consecPairs]
  | [u], g, g1, _, h => by
    cases h
    intro a b
    simp [consecPairs]
  | u :: v :: rest, g, g1, hnd, h => by
    rw [updateResidual_cons] at h
    cases hs : updStep flow g (u, v) with
    | error e => rw [hs] at h; exact absurd h (by simp)
    | ok ga =>
      rw [hs] at h
      have hnd2 : (v :: rest).Nodup := hnd.of_cons
      have hu : u ∉ v :: rest := (List.nodup_cons.mp hnd).1
      have huv : u ≠ v := fun he => hu (he ▸ List.mem_cons_self _ _)
      have ih := updateResidual_capOf (v :: rest) hnd2 h
      have hnp2l : ∀ y, (u, y) ∉ consecPairs (v :: rest) := by
        intro y hm
        exact hu (mem_consecPairs_mem hm).1
      have hnp2r : ∀ x, (x, u) ∉ consecPairs (v :: rest) := by
        intro x hm
        exact hu (mem_consecPairs_mem hm).2
      intro a b
      rw [consecPairs]
      by_cases hab1 : (a, b) = (u, v)
      · injection hab1 with ha hb
        subst ha
        subst hb
        rw [if_pos (List.mem_cons_self _ _), ih a b, if_neg (hnp2l b), if_neg (hnp2r b)]
        exact updStep_forward huv hs
      · by_cases hab2 : (a, b) = (v, u)
        · injection hab2 with ha hb
          subst ha
          subst hb
          have hnm : (a, b) ∉ ((b, a) :: consecPairs (a :: rest)) := by
            intro hm
            rcases List.mem_cons.mp hm with h1 | h1
            · injection h1 with h2 _
              exact huv h2.symm
            · exact hnp2r a h1
          rw [if_neg hnm, if_pos (List.mem_cons_self _ _), ih a b,
            if_neg (hnp2r a), if_neg (hnp2l a)]
          exact updStep_backward huv hs
        · have hn1 : ¬(a = u ∧ b = v) := fun hh => hab1 (by rw [hh.1, hh.2])
          have hn2 : ¬(a = v ∧ b = u) := fun hh => hab2 (by rw [hh.1, hh.2])
          have hframe : capOf ga a b = capOf g a b := updStep_frame hs a b hn1 hn2
          by_cases hm1 : (a, b) ∈ consecPairs (v :: rest)
          · rw [if_pos (List.mem_cons_of_mem _ hm1), ih a b, if_pos hm1, hframe]
          · have hnma : (a, b) ∉ ((u, v) :: consecPairs (v :: rest)) := by
              intro hm
              rcases List.mem_cons.mp hm with h1 | h1
              · exact hab1 h1
              · exact hm1 h1
            by_cases hm2 : (b, a) ∈ consecPairs (v :: rest)
            · rw [if_neg hnma, if_pos (List.mem_cons_of_mem _ hm2), ih a b, if_neg hm1,
                if_pos hm2, hframe]
            · have hnmb : (b, a) ∉ ((u, v) :: consecPairs (v :: rest)) := by
                intro hm
                rcases List.mem_cons.mp hm with h1 | h1
                · injection h1 with h2 h3
                  exact hab2 (by rw [h2, h3])
                · exact hm2 h1
              rw [if_neg hnma, if_neg hnmb, ih a b, if_neg hm1, if_neg hm2, hframe]


theorem hasNode_eq_of_keysOf {g1 g2 : RGraph α} (h : keysOf g1 = keysOf g2) (x : ℕ) :
    hasNode g1 x = hasNode g2 x := by
  cases h2 : hasNode g2 x
  · cases h1 : hasNode g1 x
    · rfl
    · exact absurd (hasNode_iff_mem.mpr (h ▸ hasNode_iff_mem.mp h1)) (by rw [h2]; simp)
  · exact hasNode_iff_mem.mpr (h ▸ hasNode_iff_mem.mp h2)

theorem updStep_struct {flow : α} {g g1 : RGraph α} {uv : ℕ × ℕ}
    (h : updStep flow g uv = .ok g1) :
    keysOf g1 = keysOf g ∧ (∀ a, keysOf (neighbors g1 a) = keysOf (neighbors g a)) ∧
      (WF g → WF g1) := by
  obtain ⟨u, v⟩ := uv
  rcases updStep_ok_elim h with ⟨c1, c2, _, _, hg1⟩
  subst hg1
  refine ⟨?_, ?_, ?_⟩
  · rw [keysOf_setCapRaw, keysOf_setCapRaw]
  · intro a
    rw [adjKeys_setCapRaw, adjKeys_setCapRaw]
  · intro hwf
    exact WF_setCapRaw _ _ _ (WF_setCapRaw _ _ _ hwf)

theorem updPairs_struct {flow : α} :
    ∀ (L : List (ℕ × ℕ)) {g g1 : RGraph α}, L.foldlM (updStep flow) g = .ok g1 →
      keysOf g1 = keysOf g ∧
        (∀ a, keysOf (neighbors g1 a) = keysOf (neighbors g a)) ∧ (WF g → WF g1) := by
  intro L
  induction L with
  | nil =>
    intro g g1 h
    cases h
    exact ⟨rfl, fun a => rfl, id⟩
  | cons uv rest ih =>
    intro g g1 h
    rw [foldlM_except_cons] at h
    cases hs : updStep flow g uv with
    | error e => rw [hs] at h; exact absurd h (by simp)
    | ok ga =>
      rw [hs] at h
      have h1 := updStep_struct hs
      have h2 := ih h
      exact ⟨h2.1.trans h1.1, fun a => (h2.2.1 a).trans (h1.2.1 a),
        fun hwf => h2.2.2 (h1.2.2 hwf)⟩

theorem updateResidual_struct {flow : α} {p : List ℕ} {g g1 : RGraph α}
    (h : updateResidual g p flow = .ok g1) :
    keysOf g1 = keysOf g ∧
      (∀ a, keysOf (neighbors g1 a) = keysOf (neighbors g a)) ∧ (WF g → WF g1) := by
  unfold updateResidual at h
  exact updPairs_struct _ h

theorem updateResidual_isSome {flow : α} {p : List ℕ} {g g1 : RGraph α}
    (h : updateResidual g p flow = .ok g1) (a b : ℕ) :
    (capOf g1 a b).isSome = (capOf g a b).isSome := by
  unfold updateResidual at h
  exact updPairs_isSome _ h a b

/-
find_min_capacity lemmas.
-/

theorem findMinCapacity_le {g : RGraph α} :
    ∀ (L : List (ℕ × ℕ)) (acc : Flow α) {q : α},
      (L.foldlM (fun acc2 uv =>
        match capOf g uv.1 uv.2 with
        | none => Except.error PyErr.keyError
        | some c => Except.ok (flowMin acc2 c)) acc) = .ok (some q) →
      (∀ uv ∈ L, ∃ c, capOf g uv.1 uv.2 = some c ∧ q ≤ c) ∧
        (∀ a, acc = some a → q ≤ a) := by
  intro L
  induction L with
  | nil =>
    intro acc q h
    cases h
    refine ⟨fun uv h => absurd h (List.not_mem_nil uv), fun a ha => ?_⟩
    rw [Option.some.injEq] at ha
    rw [ha]
  | cons uv rest ih =>
    intro acc q h
    rw [foldlM_except_cons] at h
    cases hc : capOf g uv.1 uv.2 with
    | none => rw [hc] at h; exact absurd h (by simp)
    | some c =>
      rw [hc] at h
      have hrec := ih (flowMin acc c) h
      have hqc : q ≤ c := by
        cases acc with
        | none => exact hrec.2 c rfl
        | some a =>
          have := hrec.2 (min a c) rfl
          exact this.trans (min_le_right a c)
      refine ⟨?_, ?_⟩
      · intro uv2 hm
        rcases List.mem_cons.mp hm with h1 | h1
        · exact ⟨c, h1 ▸ hc, hqc⟩
        · exact hrec.1 uv2 h1
      · intro a ha
        subst ha
        have := hrec.2 (min a c) rfl
        exact this.trans (min_le_left a c)

theorem findMinCapacity_pos_aux {g : RGraph α} :
    ∀ (L : List (ℕ × ℕ)) (acc : Flow α),
      (∀ uv ∈ L, 0 < resCap g uv.1 uv.2) → (∀ a, acc = some a → 0 < a) →
      ∀ {q : α},
      (L.foldlM (fun acc2 uv =>
        match capOf g uv.1 uv.2 with
        | none => Except.error PyErr.keyError
        | some c => Except.ok (flowMin acc2 c)) acc) = .ok (some q) → 0 < q := by
  intro L
  induction L with
  | nil =>
    intro acc _ hacc q h
    cases h
    exact hacc q rfl
  | cons uv rest ih =>
    intro acc hpos hacc q h
    rw [foldlM_except_cons] at h
    cases hc : capOf g uv.1 uv.2 with
    | none => rw [hc] at h; exact absurd h (by simp)
    | some c =>
      rw [hc] at h
      have hcpos : 0 < c := by
        have := hpos uv (List.mem_cons_self _ _)
        rw [resCap, hc] at this
        simpa using this
      refine ih (flowMin acc c) (fun uv2 hm => hpos uv2 (List.mem_cons_of_mem _ hm)) ?_ h
      intro a ha
      cases acc with
      | none =>
        unfold flowMin at ha
        rw [Option.some.injEq] at ha
        rw [← ha]
        exact hcpos
      | some a0 =>
        unfold flowMin at ha
        rw [Option.some.injEq] at ha
        rw [← ha]
        exact lt_min (hacc a0 rfl) hcpos

theorem findMinCapacity_pos {g : RGraph α} {p : List ℕ} {q : α}
    (hpos : ∀ uv ∈ consecPairs p, 0 < resCap g uv.1 uv.2)
    (h : findMinCapacity g p = .ok (some q)) : 0 < q := by
  unfold findMinCapacity at h
  exact findMinCapacity_pos_aux _ none hpos (fun a ha => by cases ha) h

theorem findMinCapacity_none {g : RGraph α} :
    ∀ (L : List (ℕ × ℕ)) (acc : Flow α),
      (L.foldlM (fun acc2 uv =>
        match capOf g uv.1 uv.2 with
        | none => Except.error PyErr.keyError
        | some c => Except.ok (flowMin acc2 c)) acc) = .ok none →
      acc = none ∧ L = [] := by
  intro L
  induction L with
  | nil =>
    intro acc h
    cases h
    exact ⟨rfl, rfl⟩
  | cons uv rest ih =>
    intro acc h
    rw [foldlM_except_cons] at h
    cases hc : capOf g uv.1 uv.2 with
    | none => rw [hc] at h; exact absurd h (by simp)
    | some c =>
      rw [hc] at h
      have := (ih _ h).1
      unfold flowMin at this
      cases acc with
      | none => exact absurd this (by simp)
      | some a => exact absurd this (by simp)

theorem findMinCapacity_not_none {g : RGraph α} {p : List ℕ}
    (hne : consecPairs p ≠ []) (h : findMinCapacity g p = .ok none) : False := by
  unfold findMinCapacity at h
  exact hne (findMinCapacity_none _ _ h).2


/-
Residual distance balls.
-/

theorem ball_mono {g : RGraph α} {s : ℕ} : ∀ {j k : ℕ}, j ≤ k → ball g s j ⊆ ball g s k := by
  intro j k h
  induction k with
  | zero =>
    rw [Nat.le_zero.mp h]
  | succ k ih =>
    rcases Nat.lt_or_ge j (k + 1) with h1 | h1
    · have := ih (Nat.lt_succ_iff.mp h1)
      rw [ball]
      exact this.trans Finset.subset_union_left
    · rw [Nat.le_antisymm h h1]

theorem ballMin_unique {g : RGraph α} {s w : ℕ} {j k : ℕ}
    (hj : BallMin g s w j) (hk : BallMin g s w k) : j = k := by
  rcases Nat.lt_trichotomy j k with h | h | h
  · exact absurd hj.1 (hk.2 j h)
  · exact h
  · exact absurd hk.1 (hj.2 k h)

theorem mem_ball_exists_min {g : RGraph α} {s w : ℕ} {k : ℕ} (h : w ∈ ball g s k) :
    ∃ j ≤ k, BallMin g s w j := by
  have hex : ∃ n, w ∈ ball g s n := ⟨k, h⟩
  refine ⟨Nat.find hex, ?_, Nat.find_spec hex, fun j hj => Nat.find_min hex hj⟩
  exact Nat.find_min' hex h

theorem ball_zero {g : RGraph α} {s w : ℕ} : w ∈ ball g s 0 ↔ w = s := by
  rw [ball]
  exact Finset.mem_singleton

theorem ball_step {g : RGraph α} (hg : WF g) {s w x : ℕ} {k : ℕ}
    (hw : w ∈ ball g s k) (hx : 0 < resCap g w x) : x ∈ ball g s (k + 1) := by
  have hcap : capOf g w x = some (resCap g w x) := by
    unfold resCap at hx ⊢
    cases hc : capOf g w x with
    | none => rw [hc] at hx; simp at hx
    | some c => rfl
  have hnode : hasNode g x = true := capOf_some_hasNode_right hg hcap
  rw [ball]
  refine Finset.mem_union_right _ (Finset.mem_filter.mpr ⟨?_, ⟨w, hw, hx⟩⟩)
  unfold nodesFinset
  rw [List.mem_toFinset]
  exact hasNode_iff_mem.mp hnode

theorem ballMin_succ_pred {g : RGraph α} {s w : ℕ} {k : ℕ}
    (h : BallMin g s w (k + 1)) : ∃ u ∈ ball g s k, 0 < resCap g u w := by
  have h1 : w ∈ ball g s (k + 1) := h.1
  have h2 : w ∉ ball g s k := h.2 k (Nat.lt_succ_self k)
  rw [ball] at h1
  rcases Finset.mem_union.mp h1 with h3 | h3
  · exact absurd h3 h2
  · exact (Finset.mem_filter.mp h3).2

theorem walk_mem_ball {g : RGraph α} (hg : WF g) :
    ∀ (p : List ℕ) (w k : ℕ), p.head? = some w → w ∈ ball g s k →
      (∀ uv ∈ consecPairs p, 0 < resCap g uv.1 uv.2) →
      ∀ v, p.getLast? = some v → v ∈ ball g s (k + (p.length - 1))
  | [], w, k, hh, _, _, v, hl => by simp at hh
  | [u], w, k, hh, hw, _, v, hl => by
    rw [List.head?_cons, Option.some.injEq] at hh
    have hvu : v = u := by
      simp [List.getLast?] at hl
      exact hl.symm
    rw [hvu, hh]
    simpa using hw
  | u :: u2 :: rest, w, k, hh, hw, hpos, v, hl => by
    rw [List.head?_cons, Option.some.injEq] at hh
    have hu2 : u2 ∈ ball g s (k + 1) := by
      refine ball_step hg ?_ (hpos (u, u2) (by rw [consecPairs]; exact List.mem_cons_self _ _))
      rw [← hh] at hw
      exact hw
    have hl2 : (u2 :: rest).getLast? = some v := by
      rw [List.getLast?_cons_cons] at hl
      exact hl
    have := walk_mem_ball hg (u2 :: rest) u2 (k + 1) rfl hu2
      (fun uv hm => hpos uv (by rw [consecPairs]; exact List.mem_cons_of_mem _ hm)) v hl2
    have harith : k + 1 + ((u2 :: rest).length - 1) = k + ((u :: u2 :: rest).length - 1) := by
      simp [List.length_cons]
      omega
    rwa [harith] at this


/-
Neighbor / capacity conversions.
-/

theorem resCap_pos_capOf {g : RGraph α} {u v : ℕ} (h : 0 < resCap g u v) :
    capOf g u v = some (resCap g u v) := by
  unfold resCap at h ⊢
  cases hc : capOf g u v with
  | none => rw [hc] at h; simp at h
  | some c => rfl

theorem capOf_mem_neighbors {g : RGraph α} {u v : ℕ} {c : α} (h : capOf g u v = some c) :
    (v, c) ∈ neighbors g u := by
  rcases capOf_eq_some_iff.mp h with ⟨adj, hadj, hv⟩
  unfold neighbors
  rw [hadj]
  exact lookupKey_mem hv

theorem neighbors_capOf {g : RGraph α} (hg : WF g) {u v : ℕ} {c : α}
    (h : (v, c) ∈ neighbors g u) : capOf g u v = some c := by
  unfold neighbors at h
  cases hadj : lookupKey g u with
  | none => rw [hadj] at h; simp at h
  | some adj =>
    rw [hadj] at h
    unfold capOf
    rw [hadj]
    exact mem_lookupKey (hg.2.1 (u, adj) (lookupKey_mem hadj)) (by simpa using h)

theorem neighbors_hasNode {g : RGraph α} (hg : WF g) {u : ℕ} {vc : ℕ × α}
    (h : vc ∈ neighbors g u) : hasNode g vc.1 = true := by
  unfold neighbors at h
  cases hadj : lookupKey g u with
  | none => rw [hadj] at h; simp at h
  | some adj =>
    rw [hadj] at h
    exact hg.2.2 (u, adj) (lookupKey_mem hadj) vc (by simpa using h)

/-
Shape of one breadth-first neighbor expansion.
-/

theorem bfsFold_shape (path : List ℕ) :
    ∀ (ns : Adj α) (q0 : List (ℕ × List ℕ)) (vis0 : List ℕ),
      ∃ new : List (ℕ × List ℕ),
        (ns.foldl (bfsStep path) (q0, vis0)).1 = q0 ++ new ∧
        (∀ x, x ∈ (ns.foldl (bfsStep path) (q0, vis0)).2 ↔
          (x ∈ vis0 ∨ ∃ e ∈ new, e.1 = x)) ∧
        (∀ e ∈ new, ∃ c, (e.1, c) ∈ ns ∧ 0 < c ∧ e.1 ∉ vis0 ∧ e.2 = path ++ [e.1]) ∧
        (∀ nc ∈ ns, 0 < nc.2 → nc.1 ∈ (ns.foldl (bfsStep path) (q0, vis0)).2) := by
  intro ns
  induction ns with
  | nil =>
    intro q0 vis0
    exact ⟨[], by simp, fun x => by simp, fun e he => absurd he (List.not_mem_nil e),
      fun nc h => absurd h (List.not_mem_nil nc)⟩
  | cons nc0 ns ih =>
    intro q0 vis0
    obtain ⟨n, c⟩ := nc0
    by_cases hacc : n ∉ vis0 ∧ 0 < c
    · have hstep : bfsStep path (q0, vis0) (n, c) =
          (q0 ++ [(n, path ++ [n])], n :: vis0) := by
        unfold bfsStep
        rw [if_pos hacc]
      rw [List.foldl_cons, hstep]
      rcases ih (q0 ++ [(n, path ++ [n])]) (n :: vis0) with ⟨new2, h1, h2, h3, h4⟩
      refine ⟨(n, path ++ [n]) :: new2, ?_, ?_, ?_, ?_⟩
      · rw [h1, List.append_assoc]
        rfl
      · intro x
        rw [h2 x]
        constructor
        · rintro (hx | hx)
          · rcases List.mem_cons.mp hx with hx1 | hx1
            · exact Or.inr ⟨(n, path ++ [n]), List.mem_cons_self _ _, hx1.symm⟩
            · exact Or.inl hx1
          · rcases hx with ⟨e, he, hex⟩
            exact Or.inr ⟨e, List.mem_cons_of_mem _ he, hex⟩
        · rintro (hx | hx)
          · exact Or.inl (List.mem_cons_of_mem _ hx)
          · rcases hx with ⟨e, he, hex⟩
            rcases List.mem_cons.mp he with he1 | he1
            · refine Or.inl ?_
              rw [← hex, he1]
              exact List.mem_cons_self _ _
            · exact Or.inr ⟨e, he1, hex⟩
      · intro e he
        rcases List.mem_cons.mp he with he1 | he1
        · refine ⟨c, ?_, hacc.2, ?_, ?_⟩
          · rw [he1]
            exact List.mem_cons_self _ _
          · rw [he1]
            exact hacc.1
          · rw [he1]
        · rcases h3 e he1 with ⟨c2, hc2, hpos, hnv, hep⟩
          exact ⟨c2, List.mem_cons_of_mem _ hc2, hpos,
            fun hm => hnv (List.mem_cons_of_mem _ hm), hep⟩
      · intro nc hm hpos
        rcases List.mem_cons.mp hm with hm1 | hm1
        · rw [h2]
          refine Or.inl ?_
          have hn1 : nc.1 = n := by rw [hm1]
          rw [hn1]
          exact List.mem_cons_self _ _
        · exact h4 nc hm1 hpos
    · have hstep : bfsStep path (q0, vis0) (n, c) = (q0, vis0) := by
        unfold bfsStep
        rw [if_neg hacc]
      rw [List.foldl_cons, hstep]
      rcases ih q0 vis0 with ⟨new2, h1, h2, h3, h4⟩
      refine ⟨new2, h1, h2, ?_, ?_⟩
      · intro e he
        rcases h3 e he with ⟨c2, hc2, hpos, hnv, hep⟩
        exact ⟨c2, List.mem_cons_of_mem _ hc2, hpos, hnv, hep⟩
      intro nc hm hpos
      rcases List.mem_cons.mp hm with hm1 | hm1
      · have hn : n ∈ vis0 := by
          by_cases hnv : n ∈ vis0
          · exact hnv
          · exact absurd ⟨hnv, by
              have : nc.2 = c := by rw [hm1]
              rw [this] at hpos
              exact hpos⟩ hacc
        rw [h2]
        refine Or.inl ?_
        have : nc.1 = n := by rw [hm1]
        rw [this]
        exact hn
      · exact h4 nc hm1 hpos


/-
List helpers for paths.
-/

theorem head?_append_left {β : Type} : ∀ {l : List β} (l2 : List β) {x : β},
    l.head? = some x → (l ++ l2).head? = some x
  | [], _, _, h => by simp at h
  | a :: rest, l2, x, h => by simpa using h

theorem getLast?_mem {β : Type} : ∀ {l : List β} {x : β}, l.getLast? = some x → x ∈ l
  | [], x, h => by simp at h
  | [a], x, h => by
    simp [List.getLast?] at h
    simp [h]
  | a :: b :: rest, x, h => by
    rw [List.getLast?_cons_cons] at h
    exact List.mem_cons_of_mem _ (getLast?_mem h)

theorem head?_mem {β : Type} : ∀ {l : List β} {x : β}, l.head? = some x → x ∈ l
  | [], x, h => by simp at h
  | a :: rest, x, h => by
    rw [List.head?_cons, Option.some.injEq] at h
    rw [← h]
    exact List.mem_cons_self _ _

theorem consecPairs_concat : ∀ {p : List ℕ} {u : ℕ} (x : ℕ), p.getLast? = some u →
    consecPairs (p ++ [x]) = consecPairs p ++ [(u, x)]
  | [], u, x, h => by simp at h
  | [a], u, x, h => by
    simp [List.getLast?] at h
    rw [← h]
    simp [consecPairs]
  | a :: b :: rest, u, x, h => by
    rw [List.getLast?_cons_cons] at h
    have ih := consecPairs_concat x h
    calc consecPairs ((a :: b :: rest) ++ [x])
        = (a, b) :: consecPairs ((b :: rest) ++ [x]) := rfl
      _ = (a, b) :: (consecPairs (b :: rest) ++ [(u, x)]) := by rw [ih]
      _ = consecPairs (a :: b :: rest) ++ [(u, x)] := rfl

theorem nodup_concat {β : Type} {l : List β} {x : β} (hnd : l.Nodup) (hx : x ∉ l) :
    (l ++ [x]).Nodup := by
  rw [List.nodup_append]
  exact ⟨hnd, List.nodup_singleton x, by simpa [List.disjoint_singleton] using hx⟩

theorem length_pos_of_head? {β : Type} {l : List β} {x : β} (h : l.head? = some x) :
    1 ≤ l.length := by
  cases l with
  | nil => simp at h
  | cons a rest => simp

/-
Preservation of the breadth-first invariant across one expansion step.
-/

theorem bfs_new_ballMin {g : RGraph α} {s t current : ℕ} {path : List ℕ}
    {rest : List (ℕ × List ℕ)} {visited : List ℕ} (hg : WF g)
    (hinv : BfsInv g s t ((current, path) :: rest) visited)
    {nb : ℕ} {c : α} (hmem : (nb, c) ∈ neighbors g current) (hc : 0 < c)
    (hfresh : nb ∉ visited) : BallMin g s nb path.length := by
  obtain ⟨h0, hq, hsort, hwin, hsink, ⟨P, hvis, hclo⟩, h7⟩ := hinv
  have hcur := hq (current, path) (List.mem_cons_self _ _)
  have hlen : 1 ≤ path.length := length_pos_of_head? hcur.1
  have hball : BallMin g s current (path.length - 1) := hcur.2.2.2.2.2
  have hcap : capOf g current nb = some c := neighbors_capOf hg hmem
  have hres : 0 < resCap g current nb := by
    rw [resCap, hcap]
    simpa using hc
  have hup : nb ∈ ball g s (path.length - 1 + 1) := ball_step hg hball.1 hres
  have harith : path.length - 1 + 1 = path.length := by omega
  rw [harith] at hup
  refine ⟨hup, ?_⟩
  intro j hj hmemb
  rcases mem_ball_exists_min hmemb with ⟨j2, hj2, hmin⟩
  cases j2 with
  | zero =>
    have : nb = s := ball_zero.mp hmin.1
    exact hfresh (this ▸ h0)
  | succ k =>
    rcases ballMin_succ_pred hmin with ⟨u, hu, hucap⟩
    rcases mem_ball_exists_min hu with ⟨j3, hj3, humin⟩
    have hj3lt : j3 + 1 < path.length := by omega
    have huvis : u ∈ visited := h7 u j3 humin hj3lt
    rcases (hvis u).mp huvis with hP | ⟨e, he, heu⟩
    · exact hfresh (hclo u hP nb hucap)
    · have heOK := hq e he
      have hemin : BallMin g s u (e.2.length - 1) := heu ▸ heOK.2.2.2.2.2
      have hj3eq : e.2.length - 1 = j3 := ballMin_unique hemin humin
      rcases List.mem_cons.mp he with he1 | he1
      · have : e.2 = path := by rw [he1]
        rw [this] at hj3eq
        omega
      · have hle : path.length ≤ e.2.length := by
          have := (List.pairwise_cons.mp hsort).1 e he1
          exact this
        omega


theorem bfs_step_inv {g : RGraph α} {s t current : ℕ} {path : List ℕ}
    {rest : List (ℕ × List ℕ)} {visited : List ℕ} (hg : WF g)
    (hinv : BfsInv g s t ((current, path) :: rest) visited) (hct : current ≠ t) :
    BfsInv g s t ((neighbors g current).foldl (bfsStep path) (rest, visited)).1
      ((neighbors g current).foldl (bfsStep path) (rest, visited)).2 := by
  rcases bfsFold_shape path (neighbors g current) rest visited with ⟨new, hq1, hv2, hnew, hcov⟩
  obtain ⟨h0, hq, hsort, hwin, hsink, ⟨P, hvis, hclo⟩, h7⟩ := hinv
  have hcur := hq (current, path) (List.mem_cons_self _ _)
  obtain ⟨hch, hcl, hcp, hcnd, hcn, hcb⟩ := hcur
  have hlen1 : 1 ≤ path.length := length_pos_of_head? hch
  have hcvis : current ∈ visited := (hcn current (getLast?_mem hcl)).1
  have hmono : ∀ x, x ∈ visited → x ∈ ((neighbors g current).foldl
      (bfsStep path) (rest, visited)).2 := fun x hx => (hv2 x).mpr (Or.inl hx)
  have hnewlen : ∀ e ∈ new, e.2.length = path.length + 1 := by
    intro e he
    rcases hnew e he with ⟨c, _, _, _, hep⟩
    rw [hep]
    simp
  have hcur_clo : ∀ w, 0 < resCap g current w →
      w ∈ ((neighbors g current).foldl (bfsStep path) (rest, visited)).2 := by
    intro w hw
    have hcap := resCap_pos_capOf hw
    exact hcov (w, resCap g current w) (capOf_mem_neighbors hcap) (by
      rw [resCap, hcap]
      simpa using hw)
  have hinv0 : BfsInv g s t ((current, path) :: rest) visited :=
    ⟨h0, hq, hsort, hwin, hsink, ⟨P, hvis, hclo⟩, h7⟩
  have hnewOK : ∀ e ∈ new, EntryOK g s ((neighbors g current).foldl
      (bfsStep path) (rest, visited)).2 e := by
    intro e he
    rcases hnew e he with ⟨c, hcmem, hcpos, hfresh, hep⟩
    have hball : BallMin g s e.1 path.length := by
      refine bfs_new_ballMin hg hinv0 ?_ hcpos hfresh
      exact hcmem
    have hpairs : consecPairs e.2 = consecPairs path ++ [(current, e.1)] := by
      rw [hep]
      exact consecPairs_concat e.1 hcl
    refine ⟨?_, ?_, ?_, ?_, ?_, ?_⟩
    · rw [hep]
      exact head?_append_left _ hch
    · rw [hep]
      simp
    · intro uv hm
      rw [hpairs] at hm
      rcases List.mem_append.mp hm with hm1 | hm1
      · exact hcp uv hm1
      · have : uv = (current, e.1) := by simpa using hm1
        rw [this]
        have hcap := neighbors_capOf hg hcmem
        show 0 < resCap g current e.1
        rw [resCap, hcap]
        simpa using hcpos
    · rw [hep]
      refine nodup_concat hcnd ?_
      intro hm
      exact hfresh ((hcn e.1 hm).1)
    · intro x hx
      rw [hep] at hx
      rcases List.mem_append.mp hx with hx1 | hx1
      · have := hcn x hx1
        exact ⟨hmono x this.1, this.2⟩
      · have hxe : x = e.1 := by simpa using hx1
        refine ⟨?_, ?_⟩
        · rw [hxe]
          exact (hv2 e.1).mpr (Or.inr ⟨e, he, rfl⟩)
        · rw [hxe]
          exact neighbors_hasNode hg hcmem
    · have : e.2.length - 1 = path.length := by
        rw [hep]
        simp
      rw [this]
      exact hball
  refine ⟨?_, ?_, ?_, ?_, ?_, ?_, ?_⟩
  · exact hmono s h0
  · rw [hq1]
    intro e he
    rcases List.mem_append.mp he with he1 | he1
    · have hold := hq e (List.mem_cons_of_mem _ he1)
      exact ⟨hold.1, hold.2.1, hold.2.2.1, hold.2.2.2.1,
        fun x hx => ⟨hmono x (hold.2.2.2.2.1 x hx).1, (hold.2.2.2.2.1 x hx).2⟩,
        hold.2.2.2.2.2⟩
    · exact hnewOK e he1
  · rw [hq1]
    rw [List.pairwise_append]
    refine ⟨(List.pairwise_cons.mp hsort).2, ?_, ?_⟩
    · refine List.pairwise_iff_forall_sublist.mpr ?_
      intro e1 e2 hsub
      have hm := hsub.subset
      have h1 : e1 ∈ new := hm (List.mem_cons_self _ _)
      have h2 : e2 ∈ new := hm (List.mem_cons_of_mem _ (List.mem_cons_self _ _))
      rw [hnewlen e1 h1, hnewlen e2 h2]
    · intro e1 he1 e2 he2
      have hwle : e1.2.length ≤ path.length + 1 :=
        hwin (current, path) rfl e1 (List.mem_cons_of_mem _ he1)
      rw [hnewlen e2 he2]
      exact hwle
  · rw [hq1]
    intro e1 hhead e2 he2
    cases hr : rest with
    | cons r0 rrest =>
      have he1r : r0 = e1 := by
        rw [hr] at hhead
        simpa using hhead
      have hr0len : path.length ≤ e1.2.length := by
        have h10 : path.length ≤ r0.2.length :=
          (List.pairwise_cons.mp hsort).1 r0 (by rw [hr]; exact List.mem_cons_self _ _)
        rw [← he1r]
        exact h10
      rcases List.mem_append.mp he2 with he21 | he21
      · have hw2 : e2.2.length ≤ path.length + 1 :=
          hwin (current, path) rfl e2 (List.mem_cons_of_mem _ he21)
        omega
      · rw [hnewlen e2 he21]
        omega
    | nil =>
      rw [hr] at hhead
      simp only [List.nil_append] at hhead
      have he1new : e1 ∈ new := head?_mem hhead
      rcases List.mem_append.mp he2 with he21 | he21
      · rw [hr] at he21
        simp at he21
      · rw [hnewlen e1 he1new, hnewlen e2 he21]
        omega
  · rw [hq1]
    by_cases ht : t ∈ ((neighbors g current).foldl (bfsStep path) (rest, visited)).2
    · refine Or.inr ?_
      rcases (hv2 t).mp ht with ht1 | ⟨e, he, het⟩
      · rcases hsink with hs1 | ⟨e, he, het⟩
        · exact absurd ht1 hs1
        · rcases List.mem_cons.mp he with he1 | he1
          · rw [he1] at het
            exact absurd het hct
          · exact ⟨e, List.mem_append_left _ he1, het⟩
      · exact ⟨e, List.mem_append_right _ he, het⟩
    · exact Or.inl ht
  · refine ⟨insert current P, ?_, ?_⟩
    · intro x
      rw [hq1]
      constructor
      · intro hx
        rcases (hv2 x).mp hx with hx1 | ⟨e, he, hex⟩
        · rcases (hvis x).mp hx1 with hx2 | ⟨e, he, hex⟩
          · exact Or.inl (Finset.mem_insert_of_mem hx2)
          · rcases List.mem_cons.mp he with he1 | he1
            · refine Or.inl ?_
              rw [← hex, he1]
              exact Finset.mem_insert_self _ _
            · exact Or.inr ⟨e, List.mem_append_left _ he1, hex⟩
        · exact Or.inr ⟨e, List.mem_append_right _ he, hex⟩
      · rintro (hx | ⟨e, he, hex⟩)
        · rcases Finset.mem_insert.mp hx with hx1 | hx1
          · rw [hx1]
            exact hmono current hcvis
          · exact hmono x ((hvis x).mpr (Or.inl hx1))
        · rcases List.mem_append.mp he with he1 | he1
          · exact hmono x ((hvis x).mpr (Or.inr ⟨e, List.mem_cons_of_mem _ he1, hex⟩))
          · rw [← hex]
            exact (hv2 e.1).mpr (Or.inr ⟨e, he1, rfl⟩)
    · intro u hu w hw
      rcases Finset.mem_insert.mp hu with hu1 | hu1
      · exact hcur_clo w (hu1 ▸ hw)
      · exact hmono w (hclo u hu1 w hw)
  · rw [hq1]
    cases hhead : (rest ++ new).head? with
    | some e1 =>
      simp only
      intro w k hmin hk
      have he1mem : e1 ∈ rest ++ new := head?_mem hhead
      have he1len : e1.2.length ≤ path.length + 1 := by
        rcases List.mem_append.mp he1mem with h1 | h1
        · exact hwin (current, path) rfl e1 (List.mem_cons_of_mem _ h1)
        · rw [hnewlen e1 h1]
      rcases Nat.lt_or_ge (k + 1) path.length with hlt | hge
      · exact hmono w (h7 w k hmin hlt)
      · have hkeq : k + 1 = path.length := by omega
        cases k with
        | zero =>
          have : w = s := ball_zero.mp hmin.1
          rw [this]
          exact hmono s h0
        | succ m =>
          rcases ballMin_succ_pred hmin with ⟨u, hu, hucap⟩
          rcases mem_ball_exists_min hu with ⟨j, hj, humin⟩
          have hjlt : j + 1 < path.length := by omega
          have huvis : u ∈ visited := h7 u j humin hjlt
          rcases (hvis u).mp huvis with hP | ⟨e, he, heu⟩
          · exact hmono w (hclo u hP w hucap)
          · rcases List.mem_cons.mp he with he1 | he1
            · have : u = current := by rw [he1] at heu; exact heu.symm
              rw [this] at hucap
              exact hcur_clo w hucap
            · have heOK := hq e (List.mem_cons_of_mem _ he1)
              have hemin : BallMin g s u (e.2.length - 1) := heu ▸ heOK.2.2.2.2.2
              have hj2 : e.2.length - 1 = j := ballMin_unique hemin humin
              have hle : path.length ≤ e.2.length :=
                (List.pairwise_cons.mp hsort).1 e he1
              omega
    | none =>
      simp only
      have hempty : rest ++ new = [] := List.head?_eq_none_iff.mp hhead
      have hrest : rest = [] := by
        cases rest with
        | nil => rfl
        | cons a b => simp at hempty
      have hnewnil : new = [] := by
        rw [hrest] at hempty
        simpa using hempty
      intro w k
      induction k using Nat.strong_induction_on generalizing w with
      | _ k ih =>
        intro hmin
        cases k with
        | zero =>
          have : w = s := ball_zero.mp hmin.1
          rw [this]
          exact hmono s h0
        | succ m =>
          rcases ballMin_succ_pred hmin with ⟨u, hu, hucap⟩
          rcases mem_ball_exists_min hu with ⟨j, hj, humin⟩
          have huin : u ∈ ((neighbors g current).foldl (bfsStep path) (rest, visited)).2 :=
            ih j (by omega) u humin
          rcases (hv2 u).mp huin with hu1 | ⟨e, he, heu⟩
          · rcases (hvis u).mp hu1 with hu2 | ⟨e, he, heu⟩
            · exact hmono w (hclo u hu2 w hucap)
            · rcases List.mem_cons.mp he with he1 | he1
              · have : u = current := by rw [he1] at heu; exact heu.symm
                rw [this] at hucap
                exact hcur_clo w hucap
              · rw [hrest] at he1
                simp at he1
          · rw [hnewnil] at he
            simp at he


theorem bfsAux_ok_some {g : RGraph α} {s t : ℕ} (hg : WF g) :
    ∀ (fuel : ℕ) (queue : List (ℕ × List ℕ)) (visited : List ℕ) (p : List ℕ),
      BfsInv g s t queue visited → bfsAux g t fuel queue visited = .ok (some p) →
      AugPath g s t p ∧ p.Nodup ∧ (∀ x ∈ p, hasNode g x = true) ∧
        BallMin g s t (p.length - 1) := by
  intro fuel
  induction fuel with
  | zero =>
    intro queue visited p _ h
    cases h
  | succ fuel ih =>
    intro queue visited p hinv h
    cases queue with
    | nil => cases h
    | cons e rest =>
      obtain ⟨current, path⟩ := e
      rw [bfsAux] at h
      by_cases hct : current = t
      · rw [if_pos hct] at h
        have hp : p = path := by cases h; rfl
        have hcur := hinv.2.1 (current, path) (List.mem_cons_self _ _)
        subst hp
        subst hct
        exact ⟨⟨hcur.1, hcur.2.1, hcur.2.2.1⟩, hcur.2.2.2.1,
          fun x hx => (hcur.2.2.2.2.1 x hx).2, hcur.2.2.2.2.2⟩
      · rw [if_neg hct] at h
        exact ih _ _ p (bfs_step_inv hg hinv hct) h

theorem bfsAux_ok_none {g : RGraph α} {s t : ℕ} (hg : WF g) :
    ∀ (fuel : ℕ) (queue : List (ℕ × List ℕ)) (visited : List ℕ),
      BfsInv g s t queue visited → bfsAux g t fuel queue visited = .ok none →
      ∃ S : Finset ℕ, (∀ x ∈ visited, x ∈ S) ∧ t ∉ S ∧
        ∀ u ∈ S, ∀ w, 0 < resCap g u w → w ∈ S := by
  intro fuel
  induction fuel with
  | zero =>
    intro queue visited _ h
    cases h
  | succ fuel ih =>
    intro queue visited hinv h
    cases queue with
    | nil =>
      refine ⟨visited.toFinset, fun x hx => List.mem_toFinset.mpr hx, ?_, ?_⟩
      · rcases hinv.2.2.2.2.1 with h1 | ⟨e, he, _⟩
        · exact fun hm => h1 (List.mem_toFinset.mp hm)
        · exact absurd he (List.not_mem_nil e)
      · intro u hu w hw
        rcases hinv.2.2.2.2.2.1 with ⟨P, hvis, hclo⟩
        rcases (hvis u).mp (List.mem_toFinset.mp hu) with h1 | ⟨e, he, _⟩
        · exact List.mem_toFinset.mpr (hclo u h1 w hw)
        · exact absurd he (List.not_mem_nil e)
    | cons e rest =>
      obtain ⟨current, path⟩ := e
      rw [bfsAux] at h
      by_cases hct : current = t
      · rw [if_pos hct] at h
        cases h
      · rw [if_neg hct] at h
        rcases ih _ _ (bfs_step_inv hg hinv hct) h with ⟨S, hS1, hS2, hS3⟩
        refine ⟨S, ?_, hS2, hS3⟩
        intro x hx
        rcases bfsFold_shape path (neighbors g current) rest visited with ⟨new, _, hv2, _, _⟩
        exact hS1 x ((hv2 x).mpr (Or.inl hx))

theorem bfsInv_init {g : RGraph α} {s t : ℕ} (hs : hasNode g s = true) :
    BfsInv g s t [(s, [s])] [s] := by
  refine ⟨List.mem_cons_self _ _, ?_, ?_, ?_, ?_, ?_, ?_⟩
  · intro e he
    have he2 : e = (s, [s]) := by simpa using he
    subst he2
    refine ⟨rfl, rfl, ?_, List.nodup_singleton s, ?_, ?_⟩
    · intro uv hm
      simp [consecPairs] at hm
    · intro x hx
      have : x = s := by simpa using hx
      subst this
      exact ⟨List.mem_cons_self _ _, hs⟩
    · refine ⟨?_, ?_⟩
      · simpa [ball] using rfl
      · intro j hj
        simp at hj
  · exact List.pairwise_singleton _ _
  · intro e1 h1 e2 h2
    have he1 : (s, [s]) = e1 := by simpa using h1
    have he2 : e2 = (s, [s]) := by simpa using h2
    rw [← he1, he2]
    exact Nat.le_succ _
  · by_cases ht : t = s
    · refine Or.inr ⟨(s, [s]), List.mem_cons_self _ _, ht.symm⟩
    · refine Or.inl fun hm => ht ?_
      simpa using hm
  · refine ⟨∅, ?_, ?_⟩
    · intro x
      constructor
      · intro hx
        have hxs : x = s := by simpa using hx
        exact Or.inr ⟨(s, [s]), List.mem_cons_self _ _, hxs.symm⟩
      · rintro (hx | ⟨e, he, hex⟩)
        · simp at hx
        · have : e = (s, [s]) := by simpa using he
          rw [this] at hex
          simp [← hex]
    · intro u hu
      simp at hu
  · simp only [List.head?_cons]
    intro w k _ hk
    simp at hk

theorem bfsFindPath_sound {g : RGraph α} {s t : ℕ} {p : List ℕ} {fuel : ℕ} (hg : WF g)
    (h : bfsFindPath g s t fuel = .ok (some p)) :
    AugPath g s t p ∧ p.Nodup ∧ (∀ x ∈ p, hasNode g x = true) ∧
      BallMin g s t (p.length - 1) := by
  unfold bfsFindPath at h
  by_cases hc : hasNode g s = true ∧ hasNode g t = true
  · rw [if_pos hc] at h
    exact bfsAux_ok_some hg fuel _ _ p (bfsInv_init hc.1) h
  · rw [if_neg (by simpa using hc)] at h
    cases h

theorem bfsFindPath_none_cut {g : RGraph α} {s t : ℕ} {fuel : ℕ} (hg : WF g)
    (h : bfsFindPath g s t fuel = .ok none) :
    ∃ S : Finset ℕ, s ∈ S ∧ t ∉ S ∧ ∀ u ∈ S, ∀ w, 0 < resCap g u w → w ∈ S := by
  unfold bfsFindPath at h
  by_cases hc : hasNode g s = true ∧ hasNode g t = true
  · rw [if_pos hc] at h
    rcases bfsAux_ok_none hg fuel _ _ (bfsInv_init hc.1) h with ⟨S, hS1, hS2, hS3⟩
    exact ⟨S, hS1 s (List.mem_cons_self _ _), hS2, hS3⟩
  · rw [if_neg (by simpa using hc)] at h
    cases h


/-
Depth-first search lemmas.
-/

theorem dropLast_concat_getLast? {β : Type} :
    ∀ {l : List β} {x : β}, l.getLast? = some x → l.dropLast ++ [x] = l
  | [], x, h => by simp at h
  | [a], x, h => by
    simp [List.getLast?] at h
    simp [h]
  | a :: b :: rest, x, h => by
    rw [List.getLast?_cons_cons] at h
    have := dropLast_concat_getLast? h
    simp only [List.dropLast_cons₂, List.cons_append]
    rw [this]

theorem mem_split_getLast? {β : Type} {l : List β} {x c : β}
    (hc : l.getLast? = some c) (hx : x ∈ l) : x ∈ l.dropLast ∨ x = c := by
  rw [← dropLast_concat_getLast? hc] at hx
  rcases List.mem_append.mp hx with h | h
  · exact Or.inl h
  · exact Or.inr (by simpa using h)

theorem dfsAux_sound {g : RGraph α} {s t : ℕ} (hg : WF g) : ∀ fuel : ℕ,
    (∀ (path : List ℕ) (visited : List ℕ) (p : List ℕ),
      dfsAux g t fuel (.visit path) visited = .ok (some p) →
      DfsVisitOK g s visited path →
      AugPath g s t p ∧ p.Nodup ∧ ∀ x ∈ p, hasNode g x = true) ∧
    (∀ (path : List ℕ) (ns : Adj α) (visited : List ℕ) (p : List ℕ) (current : ℕ),
      dfsAux g t fuel (.scan path ns) visited = .ok (some p) →
      DfsScanOK g s current visited path ns →
      AugPath g s t p ∧ p.Nodup ∧ ∀ x ∈ p, hasNode g x = true) := by
  intro fuel
  induction fuel with
  | zero =>
    constructor
    · intro _ _ _ h
      cases h
    · intro _ _ _ _ _ h
      cases h
  | succ fuel ih =>
    constructor
    · intro path visited p h hok
      rw [dfsAux] at h
      cases hlast : path.getLast? with
      | none =>
        rw [hlast] at h
        simp only at h
        cases h
      | some current =>
        rw [hlast] at h
        simp only at h
        by_cases hct : current = t
        · rw [if_pos hct] at h
          have hp : p = path := by cases h; rfl
          subst hp
          subst hct
          exact ⟨⟨hok.1, hlast, hok.2.1⟩, hok.2.2.1, hok.2.2.2.2⟩
        · rw [if_neg hct] at h
          refine ih.2 path (neighbors g current) (current :: visited) p current h ?_
          refine ⟨hok.1, hlast, hok.2.1, hok.2.2.1, ?_, hok.2.2.2.2, fun nc hm => hm⟩
          intro x hx
          rcases mem_split_getLast? hlast hx with h1 | h1
          · exact List.mem_cons_of_mem _ (hok.2.2.2.1 x h1)
          · rw [h1]
            exact List.mem_cons_self _ _
    · intro path ns visited p current h hok
      cases ns with
      | nil => rw [dfsAux] at h; cases h
      | cons nc ns =>
        obtain ⟨n, c⟩ := nc
        rw [dfsAux] at h
        by_cases hacc : n ∉ visited ∧ 0 < c
        · rw [if_pos hacc] at h
          have hcap : capOf g current n = some c :=
            neighbors_capOf hg (hok.2.2.2.2.2.2 (n, c) (List.mem_cons_self _ _))
          cases hrec : dfsAux g t fuel (DTask.visit (path ++ [n])) visited with
          | error e => rw [hrec] at h; cases h
          | ok r =>
            rw [hrec] at h
            cases r with
            | none =>
              simp only at h
              refine ih.2 path ns visited p current h ?_
              exact ⟨hok.1, hok.2.1, hok.2.2.1, hok.2.2.2.1, hok.2.2.2.2.1,
                hok.2.2.2.2.2.1,
                fun nc2 hm => hok.2.2.2.2.2.2 nc2 (List.mem_cons_of_mem _ hm)⟩
            | some p2 =>
              simp only at h
              have hp2 : p2 = p := by cases h; rfl
              rw [← hp2]
              refine ih.1 (path ++ [n]) visited p2 hrec ?_
              refine ⟨head?_append_left _ hok.1, ?_, ?_, ?_, ?_⟩
              · intro uv hm
                rw [consecPairs_concat n hok.2.1] at hm
                rcases List.mem_append.mp hm with h1 | h1
                · exact hok.2.2.1 uv h1
                · have : uv = (current, n) := by simpa using h1
                  rw [this]
                  show 0 < resCap g current n
                  rw [resCap, hcap]
                  simpa using hacc.2
              · refine nodup_concat hok.2.2.2.1 ?_
                intro hm
                exact hacc.1 (hok.2.2.2.2.1 n hm)
              · intro x hx
                rw [List.dropLast_concat] at hx
                exact hok.2.2.2.2.1 x hx
              · intro x hx
                rcases List.mem_append.mp hx with h1 | h1
                · exact hok.2.2.2.2.2.1 x h1
                · have : x = n := by simpa using h1
                  rw [this]
                  exact neighbors_hasNode hg (hok.2.2.2.2.2.2 (n, c) (List.mem_cons_self _ _))
        · rw [if_neg hacc] at h
          refine ih.2 path ns visited p current h ?_
          exact ⟨hok.1, hok.2.1, hok.2.2.1, hok.2.2.2.1, hok.2.2.2.2.1,
            hok.2.2.2.2.2.1, fun nc2 hm => hok.2.2.2.2.2.2 nc2 (List.mem_cons_of_mem _ hm)⟩

theorem dfsFindPath_sound {g : RGraph α} {s t : ℕ} {p : List ℕ} {fuel : ℕ} (hg : WF g)
    (h : dfsFindPath g s t fuel = .ok (some p)) :
    AugPath g s t p ∧ p.Nodup ∧ ∀ x ∈ p, hasNode g x = true := by
  unfold dfsFindPath at h
  by_cases hc : hasNode g s = true ∧ hasNode g t = true
  · rw [if_pos hc] at h
    refine (dfsAux_sound hg fuel).1 [s] [] p h ?_
    refine ⟨rfl, ?_, List.nodup_singleton s, ?_, ?_⟩
    · intro uv hm
      simp [consecPairs] at hm
    · intro x hx
      simp at hx
    · intro x hx
      have : x = s := by simpa using hx
      rw [this]
      exact hc.1
  · rw [if_neg (by simpa using hc)] at h
    cases h


theorem dfsAux_none_cut {g : RGraph α} {t : ℕ} (_hg : WF g) : ∀ fuel : ℕ,
    (∀ (path visited : List ℕ) (current : ℕ),
      dfsAux g t fuel (.visit path) visited = .ok none →
      path.getLast? = some current → current ∉ visited →
      ∃ S : Finset ℕ, current ∈ S ∧ (∀ x ∈ S, x ∉ visited) ∧ t ∉ S ∧
        ∀ u ∈ S, ∀ w, 0 < resCap g u w → (w ∈ S ∨ w ∈ visited)) ∧
    (∀ (path : List ℕ) (ns : Adj α) (visited : List ℕ) (current : ℕ),
      dfsAux g t fuel (.scan path ns) visited = .ok none →
      (∀ nc ∈ ns, nc ∈ neighbors g current) →
      ∃ S : Finset ℕ, (∀ x ∈ S, x ∉ visited) ∧ t ∉ S ∧
        (∀ u ∈ S, ∀ w, 0 < resCap g u w → (w ∈ S ∨ w ∈ visited)) ∧
        ∀ nc ∈ ns, 0 < nc.2 → (nc.1 ∈ visited ∨ nc.1 ∈ S)) := by
  intro fuel
  induction fuel with
  | zero =>
    constructor
    · intro _ _ _ h
      cases h
    · intro _ _ _ _ h
      cases h
  | succ fuel ih =>
    constructor
    · intro path visited current h hlast hcv
      rw [dfsAux] at h
      rw [hlast] at h
      simp only at h
      by_cases hct : current = t
      · rw [if_pos hct] at h
        cases h
      · rw [if_neg hct] at h
        rcases ih.2 path (neighbors g current) (current :: visited) current h
          (fun nc hm => hm) with ⟨S2, hd, ht2, hcl, hcov⟩
        refine ⟨insert current S2, Finset.mem_insert_self _ _, ?_, ?_, ?_⟩
        · intro x hx
          rcases Finset.mem_insert.mp hx with hx1 | hx1
          · rw [hx1]
            exact hcv
          · exact fun hm => hd x hx1 (List.mem_cons_of_mem _ hm)
        · intro hm
          rcases Finset.mem_insert.mp hm with h1 | h1
          · exact hct h1.symm
          · exact ht2 h1
        · intro u hu w hw
          rcases Finset.mem_insert.mp hu with hu1 | hu1
          · have hw2 : 0 < resCap g current w := hu1 ▸ hw
            have hcap := resCap_pos_capOf hw2
            have hmem : (w, resCap g current w) ∈ neighbors g current :=
              capOf_mem_neighbors hcap
            have hpos2 : 0 < ((w, resCap g current w) : ℕ × α).2 := hw2
            have hres := hcov (w, resCap g current w) hmem hpos2
            rcases hres with h1 | h1
            · rcases List.mem_cons.mp h1 with h2 | h2
              · have hwc : w = current := h2
                exact Or.inl (by rw [hwc]; exact Finset.mem_insert_self _ _)
              · exact Or.inr h2
            · exact Or.inl (Finset.mem_insert_of_mem h1)
          · rcases hcl u hu1 w hw with h1 | h1
            · exact Or.inl (Finset.mem_insert_of_mem h1)
            · rcases List.mem_cons.mp h1 with h2 | h2
              · exact Or.inl (by rw [h2]; exact Finset.mem_insert_self _ _)
              · exact Or.inr h2
    · intro path ns visited current h hns
      cases ns with
      | nil =>
        refine ⟨∅, ?_, ?_, ?_, ?_⟩
        · intro x hx
          simp at hx
        · simp
        · intro u hu
          simp at hu
        · intro nc hm
          simp at hm
      | cons nc0 ns =>
        obtain ⟨n, c⟩ := nc0
        rw [dfsAux] at h
        by_cases hacc : n ∉ visited ∧ 0 < c
        · rw [if_pos hacc] at h
          cases hrec : dfsAux g t fuel (DTask.visit (path ++ [n])) visited with
          | error e => rw [hrec] at h; cases h
          | ok r =>
            rw [hrec] at h
            cases r with
            | some p2 => simp only at h; cases h
            | none =>
              simp only at h
              rcases ih.1 (path ++ [n]) visited n hrec (by simp) hacc.1 with
                ⟨S1, hn1, hd1, ht1, hcl1⟩
              rcases ih.2 path ns visited current h
                (fun nc2 hm => hns nc2 (List.mem_cons_of_mem _ hm)) with
                ⟨S2, hd2, ht2, hcl2, hcov2⟩
              refine ⟨S1 ∪ S2, ?_, ?_, ?_, ?_⟩
              · intro x hx
                rcases Finset.mem_union.mp hx with h1 | h1
                · exact hd1 x h1
                · exact hd2 x h1
              · intro hm
                rcases Finset.mem_union.mp hm with h1 | h1
                · exact ht1 h1
                · exact ht2 h1
              · intro u hu w hw
                rcases Finset.mem_union.mp hu with h1 | h1
                · rcases hcl1 u h1 w hw with h2 | h2
                  · exact Or.inl (Finset.mem_union_left _ h2)
                  · exact Or.inr h2
                · rcases hcl2 u h1 w hw with h2 | h2
                  · exact Or.inl (Finset.mem_union_right _ h2)
                  · exact Or.inr h2
              · intro nc2 hm hpos
                rcases List.mem_cons.mp hm with h1 | h1
                · refine Or.inr (Finset.mem_union_left _ ?_)
                  have : nc2.1 = n := by rw [h1]
                  rw [this]
                  exact hn1
                · rcases hcov2 nc2 h1 hpos with h2 | h2
                  · exact Or.inl h2
                  · exact Or.inr (Finset.mem_union_right _ h2)
        · rw [if_neg hacc] at h
          rcases ih.2 path ns visited current h
            (fun nc2 hm => hns nc2 (List.mem_cons_of_mem _ hm)) with
            ⟨S2, hd2, ht2, hcl2, hcov2⟩
          refine ⟨S2, hd2, ht2, hcl2, ?_⟩
          intro nc2 hm hpos
          rcases List.mem_cons.mp hm with h1 | h1
          · refine Or.inl ?_
            by_cases hnv : n ∈ visited
            · have : nc2.1 = n := by rw [h1]
              rw [this]
              exact hnv
            · refine absurd ⟨hnv, ?_⟩ hacc
              have : nc2.2 = c := by rw [h1]
              rw [this] at hpos
              exact hpos
          · exact hcov2 nc2 h1 hpos

theorem dfsFindPath_none_cut {g : RGraph α} {s t : ℕ} {fuel : ℕ} (hg : WF g)
    (h : dfsFindPath g s t fuel = .ok none) :
    ∃ S : Finset ℕ, s ∈ S ∧ t ∉ S ∧ ∀ u ∈ S, ∀ w, 0 < resCap g u w → w ∈ S := by
  unfold dfsFindPath at h
  by_cases hc : hasNode g s = true ∧ hasNode g t = true
  · rw [if_pos hc] at h
    rcases (dfsAux_none_cut hg fuel).1 [s] [] s h rfl (by simp) with ⟨S, hs, hd, ht, hcl⟩
    refine ⟨S, hs, ht, ?_⟩
    intro u hu w hw
    rcases hcl u hu w hw with h1 | h1
    · exact h1
    · simp at h1
  · rw [if_neg (by simpa using hc)] at h
    cases h


/-
Error behaviour of the two find_min_capacity variants.
-/

theorem findMinCapacity_missing {g : RGraph α} :
    ∀ (L : List (ℕ × ℕ)) (acc : Flow α),
      (∃ uv ∈ L, capOf g uv.1 uv.2 = none) →
      (L.foldlM (fun acc2 uv =>
        match capOf g uv.1 uv.2 with
        | none => Except.error PyErr.keyError
        | some c => Except.ok (flowMin acc2 c)) acc) = .error .keyError := by
  intro L
  induction L with
  | nil =>
    intro acc h
    rcases h with ⟨uv, hm, _⟩
    exact absurd hm (List.not_mem_nil uv)
  | cons uv0 rest ih =>
    intro acc h
    rw [foldlM_except_cons]
    cases hc : capOf g uv0.1 uv0.2 with
    | none => rfl
    | some c =>
      refine ih _ ?_
      rcases h with ⟨uv, hm, hnone⟩
      rcases List.mem_cons.mp hm with h1 | h1
      · rw [h1, hc] at hnone
        cases hnone
      · exact ⟨uv, h1, hnone⟩

theorem minFold_missing {g : RGraph α} :
    ∀ (L : List (ℕ × ℕ)) (acc : α),
      (∃ uv ∈ L, capOf g uv.1 uv.2 = none) →
      (L.foldlM (fun acc2 uv =>
        match capOf g uv.1 uv.2 with
        | none => Except.error PyErr.keyError
        | some c => Except.ok (min acc2 c)) acc) = .error .keyError := by
  intro L
  induction L with
  | nil =>
    intro acc h
    rcases h with ⟨uv, hm, _⟩
    exact absurd hm (List.not_mem_nil uv)
  | cons uv0 rest ih =>
    intro acc h
    rw [foldlM_except_cons]
    cases hc : capOf g uv0.1 uv0.2 with
    | none => rfl
    | some c =>
      refine ih _ ?_
      rcases h with ⟨uv, hm, hnone⟩
      rcases List.mem_cons.mp hm with h1 | h1
      · rw [h1, hc] at hnone
        cases hnone
      · exact ⟨uv, h1, hnone⟩

theorem findMinCapacityBase_missing {g : RGraph α} {p : List ℕ}
    (h : ∃ uv ∈ consecPairs p, capOf g uv.1 uv.2 = none) :
    findMinCapacityBase g p = .error .keyError := by
  unfold findMinCapacityBase
  split
  · rename_i heq
    rcases h with ⟨uv, hm, _⟩
    rw [heq] at hm
    exact absurd hm (List.not_mem_nil uv)
  · rename_i uv0 rest heq
    split
    · rfl
    · rename_i c0 hc
      refine minFold_missing rest c0 ?_
      rcases h with ⟨uv, hm, hnone⟩
      rw [heq] at hm
      rcases List.mem_cons.mp hm with h1 | h1
      · rw [h1, hc] at hnone
        cases hnone
      · exact ⟨uv, h1, hnone⟩


/-
Claim C4, C6, C7, C9, C10 theorems.
-/

/-- C4 counterexample: on the Scenario A network the breadth-first
computation compute_max_flow_with_history(0, 3) returns max_flow = 13 but
only 2 augmenting paths, refuting the claimed count of exactly 3. -/
theorem c4_counterexample :
    (bfsComputeMaxFlowWithHistory gScenA 0 3 20 10).map
      (fun r => (r.maxFlow, r.paths.length)) = .ok (some 13, 2) ∧ (2 : ℕ) ≠ 3 := by
  constructor
  · rfl
  · decide

/-- C4 (amended): on the Scenario A network, compute_max_flow_with_history
returns max_flow = 13 for both strategies; the depth-first variant finds
exactly 3 augmenting paths ([0,1,2,3] with flow 2, [0,1,3] with flow 4,
[0,2,3] with flow 7) while the breadth-first variant finds exactly 2
([0,1,3] with flow 4, [0,2,3] with flow 9). -/
theorem c4_scenario_a :
    (dfsComputeMaxFlowWithHistory gScenA 0 3 30 10).map
      (fun r => (r.maxFlow, r.paths)) = .ok (some 13, [[0, 1, 2, 3], [0, 1, 3], [0, 2, 3]]) ∧
    (bfsComputeMaxFlowWithHistory gScenA 0 3 20 10).map
      (fun r => (r.maxFlow, r.paths)) = .ok (some 13, [[0, 1, 3], [0, 2, 3]]) := by
  constructor
  · rfl
  · rfl

/-- C6 counterexample: on a one-node path (fewer than two nodes) the
overridden find_min_capacity does not fail at all, returning float
infinity, refuting the claim that it fails with InvalidPathError. -/
theorem c6_counterexample :
    findMinCapacity gScenA [0] = .ok (none : Flow ℤ) ∧
      ∀ e : PyErr, findMinCapacity gScenA [0] ≠ .error e := by
  refine ⟨rfl, ?_⟩
  intro e h
  rw [show findMinCapacity gScenA [0] = .ok (none : Flow ℤ) from rfl] at h
  cases h

/-- C6 (amended): there is no InvalidPathError anywhere in the code; on a
path with fewer than two nodes the base find_min_capacity raises ValueError
(min of an empty sequence) while the BFS/DFS override silently returns
float infinity, and on a path with a consecutive pair absent from the
residual graph both variants raise KeyError. -/
theorem c6_bottleneck_errors (g : RGraph α) (p : List ℕ) :
    (consecPairs p = [] →
      findMinCapacityBase g p = .error .valueError ∧ findMinCapacity g p = .ok none) ∧
    ((∃ uv ∈ consecPairs p, capOf g uv.1 uv.2 = none) →
      findMinCapacityBase g p = .error .keyError ∧
        findMinCapacity g p = .error .keyError) := by
  constructor
  · intro h
    constructor
    · unfold findMinCapacityBase
      rw [h]
    · unfold findMinCapacity
      rw [h]
      rfl
  · intro h
    exact ⟨findMinCapacityBase_missing h, by
      unfold findMinCapacity
      exact findMinCapacity_missing _ _ h⟩

/-- C6 witness: concrete instances of both error behaviours. -/
theorem c6_witness :
    (findMinCapacityBase gScenA [5] = .error .valueError ∧
      findMinCapacity gScenA [5] = .ok none) ∧
    (findMinCapacityBase gScenA [0, 3] = .error .keyError ∧
      findMinCapacity gScenA [0, 3] = .error .keyError) :=
  ⟨(c6_bottleneck_errors gScenA [5]).1 (by decide),
   (c6_bottleneck_errors gScenA [0, 3]).2 ⟨(0, 3), by decide, rfl⟩⟩

/-- C7 counterexample: with tracking not started (start_time is None),
increment_step and add_path silently update the counters instead of
raising an illegal-state exception. -/
theorem c7_counterexample :
    (newWorld : World ℤ).tracker.startTime = none ∧
      (incrementStep (newWorld : World ℤ)).tracker.steps = 1 ∧
      (addPath (1 : ℤ) newWorld).tracker.paths = 1 := by
  exact ⟨rfl, rfl, rfl⟩

/-- C7 (amended): only get_metrics guards the tracking state, raising
RuntimeError when start_tracking has not been called; increment_step and
add_path never fail and mutate their counters unconditionally. -/
theorem c7_tracking_guards (now : α) (w : World α) :
    (w.tracker.startTime = none → getMetrics now w = .error .runtimeError) ∧
    (incrementStep w).tracker.steps = w.tracker.steps + 1 ∧
    ∀ f, (addPath f w).tracker.paths = w.tracker.paths + 1 ∧
      (addPath f w).tracker.totalFlow = w.tracker.totalFlow + f := by
  refine ⟨?_, rfl, fun f => ⟨rfl, rfl⟩⟩
  intro h
  unfold getMetrics
  rw [h]

/-- C7 witness. -/
theorem c7_witness :
    getMetrics (0 : ℤ) (newWorld : World ℤ) = .error .runtimeError ∧
      (incrementStep (newWorld : World ℤ)).tracker.steps =
        (newWorld : World ℤ).tracker.steps + 1 :=
  ⟨(c7_tracking_guards (0 : ℤ) (newWorld : World ℤ)).1 rfl,
   (c7_tracking_guards (0 : ℤ) (newWorld : World ℤ)).2.1⟩

/-- C9 counterexample: two logically identical networks that differ only
in edge-insertion order produce different augmenting-path sequences under
the breadth-first strategy, refuting the claim that neighbor visitation
follows a fixed total order on node identifiers. -/
theorem c9_counterexample :
    LogicalEq gOrd1 gOrd2 ∧
    (bfsComputeMaxFlowWithHistory gOrd1 0 3 20 10).map (fun r => r.paths) =
      .ok [[0, 1, 3], [0, 2, 3]] ∧
    (bfsComputeMaxFlowWithHistory gOrd2 0 3 20 10).map (fun r => r.paths) =
      .ok [[0, 2, 3], [0, 1, 3]] ∧
    ([[0, 1, 3], [0, 2, 3]] : List (List ℕ)) ≠ [[0, 2, 3], [0, 1, 3]] := by
  refine ⟨⟨?_, ?_⟩, rfl, rfl, by decide⟩
  · intro u
    match u with
    | 0 => rfl
    | 1 => rfl
    | 2 => rfl
    | 3 => rfl
    | n + 4 => rfl
  · intro u v
    match u, v with
    | 0, 0 => rfl
    | 0, 1 => rfl
    | 0, 2 => rfl
    | 0, 3 => rfl
    | 1, 0 => rfl
    | 1, 1 => rfl
    | 1, 2 => rfl
    | 1, 3 => rfl
    | 2, 0 => rfl
    | 2, 1 => rfl
    | 2, 2 => rfl
    | 2, 3 => rfl
    | 3, 0 => rfl
    | 3, 1 => rfl
    | 3, 2 => rfl
    | 3, 3 => rfl
    | n + 4, v => rfl
    | 0, m + 4 => rfl
    | 1, m + 4 => rfl
    | 2, m + 4 => rfl
    | 3, m + 4 => rfl

/-- C9 (amended): neighbor visitation order is the residual graph
adjacency (edge-insertion) order, not an enforced total order on node
identifiers: the two insertion orders expose different adjacency lists at
the source, and while both runs compute the same max_flow value, their
path sequences differ. -/
theorem c9_insertion_order :
    neighbors gOrd1 0 = [(1, 1), (2, 1)] ∧ neighbors gOrd2 0 = [(2, 1), (1, 1)] ∧
    (bfsComputeMaxFlowWithHistory gOrd1 0 3 20 10).map (fun r => r.maxFlow) =
      .ok (some 2) ∧
    (bfsComputeMaxFlowWithHistory gOrd2 0 3 20 10).map (fun r => r.maxFlow) =
      .ok (some 2) := by
  exact ⟨rfl, rfl, rfl, rfl⟩

/-- C10: update_residual_capacities changes only the consecutive pairs of
the path and their reverses; every other ordered pair keeps its residual
capacity. -/
theorem c10_update_frame (g g1 : RGraph α) (path : List ℕ) (flow : α)
    (h : updateResidual g path flow = .ok g1) :
    ∀ u v, (u, v) ∉ consecPairs path → (v, u) ∉ consecPairs path →
      resCap g1 u v = resCap g u v := by
  intro u v h1 h2
  unfold updateResidual at h
  unfold resCap
  rw [updPairs_frame (consecPairs path) h u v h1 h2]

/-- C10 witness: pushing 4 units along [0, 1, 3] in the Scenario A
residual network leaves the untouched pair (0, 2) unchanged. -/
theorem c10_witness :
    updateResidual (initResidual gScenA) [0, 1, 3] (4 : ℤ) = .ok c10res ∧
      resCap c10res 0 2 = resCap (initResidual gScenA) 0 2 :=
  ⟨rfl, c10_update_frame (initResidual gScenA) c10res [0, 1, 3] 4 rfl 0 2
    (by decide) (by decide)⟩


/-
Claim C8 theorems.
-/

theorem getD_set_self {β : Type} :
    ∀ (l : List β) (i : ℕ) (x d : β), i < l.length → (l.set i x).getD i d = x
  | [], i, x, d, h => by simp at h
  | a :: rest, 0, x, d, _ => rfl
  | a :: rest, i + 1, x, d, h => by
    have : i < rest.length := by simpa using h
    simpa [List.set, List.getD] using
      (by simpa [List.getD] using getD_set_self rest i x d this : (rest.set i x).getD i d = x)

/-- C8 counterexample: a metrics snapshot taken from a tracker is mutated
by a later add_visited_node call, because the snapshot's visited_nodes
field is the tracker's own list object: the snapshot first reads as [] and
later as [7]. -/
theorem c8_counterexample :
    getMetrics (5 : ℤ) (startTracking 0 newWorld) =
      .ok (⟨5, 0, 0, 0, 1, []⟩, startTracking 0 newWorld) ∧
    metricsVisited (startTracking (0 : ℤ) newWorld) ⟨5, 0, 0, 0, 1, []⟩ = [] ∧
    metricsVisited (addVisitedNode 7 (startTracking (0 : ℤ) newWorld))
      ⟨5, 0, 0, 0, 1, []⟩ = [7] ∧ ([7] : List ℕ) ≠ [] := by
  refine ⟨rfl, rfl, rfl, by decide⟩

/-- C8 (amended): get_metrics never mutates the tracker and copies the
scalar counters and the residual-capacity dictionary into the snapshot,
but its visited_nodes field aliases the tracker's own visited list, so a
later add_visited_node of a fresh node appends to every previously
returned snapshot's visited_nodes view. -/
theorem c8_snapshot_semantics (now : α) (w : World α) (m : AlgorithmMetrics α)
    (w' : World α) (h : getMetrics now w = .ok (m, w')) :
    w' = w ∧ m.visitedRef = w.tracker.visitedRef ∧
      m.residualCapacities = w.tracker.residualCaps ∧
      m.stepsCount = w.tracker.steps ∧ m.pathsFound = w.tracker.paths ∧
      ∀ n, n ∉ metricsVisited w m → w.tracker.visitedRef < w.store.length →
        metricsVisited (addVisitedNode n w) m = metricsVisited w m ++ [n] := by
  unfold getMetrics at h
  cases hst : w.tracker.startTime with
  | none =>
    rw [hst] at h
    cases h
  | some t0 =>
    rw [hst] at h
    simp only [Except.ok.injEq, Prod.mk.injEq] at h
    obtain ⟨hm, hw⟩ := h
    refine ⟨hw.symm, ?_, ?_, ?_, ?_, ?_⟩
    · rw [← hm]
    · rw [← hm]
    · rw [← hm]
    · rw [← hm]
    · intro n hn hlt
      unfold metricsVisited at hn ⊢
      unfold addVisitedNode
      have href : m.visitedRef = w.tracker.visitedRef := by rw [← hm]
      rw [href] at hn ⊢
      simp only
      rw [if_neg hn]
      exact getD_set_self w.store w.tracker.visitedRef _ [] hlt

/-- C8 witness. -/
theorem c8_witness :
    metricsVisited (addVisitedNode 7 (startTracking (0 : ℤ) newWorld))
        ⟨5, 0, 0, 0, 1, []⟩ =
      metricsVisited (startTracking (0 : ℤ) newWorld) ⟨5, 0, 0, 0, 1, []⟩ ++ [7] :=
  (c8_snapshot_semantics (5 : ℤ) (startTracking 0 newWorld) ⟨5, 0, 0, 0, 1, []⟩
    (startTracking 0 newWorld) rfl).2.2.2.2.2 7 (by decide) (by decide)


/-
Generic invariant lemma for the Ford-Fulkerson history loop.
-/

theorem ffLoopHist_inv (find : Finder α) (s t : ℕ) (I : RGraph α → Prop)
    (hpres : ∀ rg p q rg', I rg → find rg s t = .ok (some p) →
      findMinCapacity rg p = .ok (some q) → updateResidual rg p q = .ok rg' → I rg') :
    ∀ (fuel : ℕ) (rg : RGraph α) (mf : Flow α) (paths : List (List ℕ))
      (hist : List (RGraph α)) (res : HistRun α),
      I rg → (∀ h ∈ hist, I h) → hist.getLast? = some rg →
      ffLoopHist find s t fuel rg mf paths hist = .ok res →
      (∀ h ∈ res.residuals, I h) ∧
        ∃ rgF, res.residuals.getLast? = some rgF ∧ I rgF ∧ find rgF s t = .ok none := by
  intro fuel
  induction fuel with
  | zero =>
    intro rg mf paths hist res _ _ _ h
    cases h
  | succ fuel ih =>
    intro rg mf paths hist res hI hhist hlast h
    rw [ffLoopHist] at h
    cases hf : find rg s t with
    | error e => rw [hf] at h; cases h
    | ok r =>
      rw [hf] at h
      cases r with
      | none =>
        simp only at h
        have hres : res = ⟨mf, paths, hist⟩ := by cases h; rfl
        rw [hres]
        exact ⟨hhist, rg, hlast, hI, hf⟩
      | some p =>
        simp only at h
        cases hm : findMinCapacity rg p with
        | error e => rw [hm] at h; cases h
        | ok fv =>
          rw [hm] at h
          cases fv with
          | none =>
            simp only at h
            refine ih rg _ _ _ res hI ?_ ?_ h
            · intro h2 hm2
              rcases List.mem_append.mp hm2 with h3 | h3
              · exact hhist h2 h3
              · have : h2 = rg := by simpa using h3
                rw [this]
                exact hI
            · rw [List.getLast?_concat]
          | some q =>
            simp only at h
            cases hu : updateResidual rg p q with
            | error e => rw [hu] at h; cases h
            | ok rg1 =>
              rw [hu] at h
              have hI1 : I rg1 := hpres rg p q rg1 hI hf hm hu
              refine ih rg1 _ _ _ res hI1 ?_ ?_ h
              · intro h2 hm2
                rcases List.mem_append.mp hm2 with h3 | h3
                · exact hhist h2 h3
                · have : h2 = rg1 := by simpa using h3
                  rw [this]
                  exact hI1
              · rw [List.getLast?_concat]

/-
Augmentation preserves the residual invariants.
-/

theorem consecPairs_no_swap :
    ∀ {p : List ℕ}, p.Nodup → ∀ {u v : ℕ}, (u, v) ∈ consecPairs p →
      (v, u) ∉ consecPairs p
  | [], _, u, v, hm => absurd hm (by simp [consecPairs])
  | [a], _, u, v, hm => absurd hm (by simp [consecPairs])
  | a :: b :: rest, hnd, u, v, hm => by
    have hab : a ∉ b :: rest := (List.nodup_cons.mp hnd).1
    intro hswap
    rw [consecPairs] at hm hswap
    rcases List.mem_cons.mp hm with h1 | h1 <;>
      rcases List.mem_cons.mp hswap with h2 | h2
    · injection h1 with h1a h1b
      injection h2 with h2a h2b
      exact hab (by rw [← h1a, h2b]; exact List.mem_cons_self _ _)
    · injection h1 with h1a h1b
      exact hab (h1a ▸ (mem_consecPairs_mem h2).2)
    · injection h2 with h2a h2b
      exact hab (h2a ▸ (mem_consecPairs_mem h1).2)
    · exact consecPairs_no_swap (List.nodup_cons.mp hnd).2 h1 h2

theorem findMinCapacity_le_path {g : RGraph α} {p : List ℕ} {q : α}
    (h : findMinCapacity g p = .ok (some q)) :
    ∀ uv ∈ consecPairs p, ∃ c, capOf g uv.1 uv.2 = some c ∧ q ≤ c := by
  unfold findMinCapacity at h
  exact (findMinCapacity_le _ _ h).1

theorem update_resCap_cases {rg rg' : RGraph α} {p : List ℕ} {q : α}
    (hpc : PairClosed rg)
    (hpath : ∀ uv ∈ consecPairs p, 0 < resCap rg uv.1 uv.2) (hnd : p.Nodup)
    (hupd : updateResidual rg p q = .ok rg') :
    ∀ a b, resCap rg' a b =
      if (a, b) ∈ consecPairs p then resCap rg a b - q
      else if (b, a) ∈ consecPairs p then resCap rg a b + q
      else resCap rg a b := by
  have hchar := updateResidual_capOf p hnd hupd
  have hpresent : ∀ uv ∈ consecPairs p,
      capOf rg uv.1 uv.2 = some (resCap rg uv.1 uv.2) ∧
        (capOf rg uv.2 uv.1).isSome = true := by
    intro uv hm
    have h1 := resCap_pos_capOf (hpath uv hm)
    refine ⟨h1, hpc uv.1 uv.2 ?_⟩
    unfold hasEdgeB
    rw [h1]
    rfl
  intro a b
  rw [resCap, hchar a b]
  by_cases h1 : (a, b) ∈ consecPairs p
  · rw [if_pos h1, if_pos h1, (hpresent (a, b) h1).1]
    rfl
  · rw [if_neg h1, if_neg h1]
    by_cases h2 : (b, a) ∈ consecPairs p
    · rw [if_pos h2, if_pos h2]
      rcases Option.isSome_iff_exists.mp (hpresent (b, a) h2).2 with ⟨c, hc⟩
      rw [hc]
      rw [resCap, hc]
      rfl
    · rw [if_neg h2, if_neg h2]
      rfl

theorem aug_preserves_inv {g0 rg rg' : RGraph α} {p : List ℕ} {q : α}
    (hwf : WF rg) (hpc : PairClosed rg) (hsum : SumInv g0 rg) (hnn : NonNeg rg)
    (hkeys : keysOf rg = keysOf g0)
    (hpath : ∀ uv ∈ consecPairs p, 0 < resCap rg uv.1 uv.2) (hnd : p.Nodup)
    (hq : findMinCapacity rg p = .ok (some q))
    (hupd : updateResidual rg p q = .ok rg') :
    WF rg' ∧ PairClosed rg' ∧ SumInv g0 rg' ∧ NonNeg rg' ∧ keysOf rg' = keysOf g0 := by
  have hqpos : 0 < q := findMinCapacity_pos hpath hq
  have hres := update_resCap_cases hpc hpath hnd hupd
  refine ⟨(updateResidual_struct hupd).2.2 hwf, ?_, ?_, ?_, ?_⟩
  · intro a b hab
    unfold hasEdgeB at hab ⊢
    rw [updateResidual_isSome hupd] at hab ⊢
    exact hpc a b hab
  · intro a b
    rw [hres a b, hres b a]
    by_cases h1 : (a, b) ∈ consecPairs p
    · rw [if_pos h1, if_neg (consecPairs_no_swap hnd h1), if_pos h1]
      rw [← hsum a b]
      abel
    · rw [if_neg h1]
      by_cases h2 : (b, a) ∈ consecPairs p
      · rw [if_pos h2, if_pos h2, ← hsum a b]
        abel
      · rw [if_neg h2, if_neg h2, if_neg h1, hsum a b]
  · intro a b
    rw [hres a b]
    by_cases h1 : (a, b) ∈ consecPairs p
    · rw [if_pos h1]
      rcases findMinCapacity_le_path hq (a, b) h1 with ⟨c, hc, hqc⟩
      have : resCap rg a b = c := by rw [resCap, hc]; rfl
      rw [this]
      simpa using hqc
    · rw [if_neg h1]
      by_cases h2 : (b, a) ∈ consecPairs p
      · rw [if_pos h2]
        have := hnn a b
        positivity
      · rw [if_neg h2]
        exact hnn a b
  · rw [(updateResidual_struct hupd).1, hkeys]


/-
Claims C1 and C3.
-/

theorem nonNeg_of_entries {g : RGraph α} (h : ∀ ua ∈ g, ∀ vc ∈ ua.2, 0 ≤ vc.2) :
    NonNeg g := by
  intro u v
  rw [resCap]
  cases hc : capOf g u v with
  | none => simp
  | some c =>
    simp only [Option.getD_some]
    unfold capOf at hc
    cases hl : lookupKey g u with
    | none => rw [hl] at hc; cases hc
    | some adj =>
      rw [hl] at hc
      exact h (u, adj) (lookupKey_mem hl) (v, c) (lookupKey_mem hc)

theorem bfs_finderSound (sfuel : ℕ) :
    FinderSound (fun (rg : RGraph α) a b => bfsFindPath rg a b sfuel) := by
  intro g s t p hg h
  obtain ⟨h1, h2, h3, _⟩ := bfsFindPath_sound hg h
  exact ⟨h1, h2, h3⟩

theorem dfs_finderSound (sfuel : ℕ) :
    FinderSound (fun (rg : RGraph α) a b => dfsFindPath rg a b sfuel) := by
  intro g s t p hg h
  exact dfsFindPath_sound hg h

theorem aug_preserves_resInv {g0 : RGraph α} {find : Finder α} (hsnd : FinderSound find)
    (s t : ℕ) : ∀ rg p q rg', ResInv g0 rg → find rg s t = .ok (some p) →
      findMinCapacity rg p = .ok (some q) → updateResidual rg p q = .ok rg' →
      ResInv g0 rg' := by
  intro rg p q rg' hI hf hm hu
  obtain ⟨hwf, hpc, hsum, hnn, hk⟩ := hI
  obtain ⟨hap, hnd, _⟩ := hsnd rg s t p hwf hf
  exact aug_preserves_inv hwf hpc hsum hnn hk hap.2.2 hnd hm hu

theorem computeHist_resInv {find : Finder α} {g : RGraph α} {s t lfuel : ℕ}
    {res : HistRun α} (hsnd : FinderSound find) (hg : WF g) (hnn : NonNeg g)
    (h : computeMaxFlowWithHistory find g s t lfuel = .ok res) :
    (∀ rg ∈ res.residuals, ResInv (initResidual g) rg) ∧
      ∃ rgF, res.residuals.getLast? = some rgF ∧ ResInv (initResidual g) rgF ∧
        find rgF s t = .ok none := by
  unfold computeMaxFlowWithHistory at h
  by_cases hc : hasNode (initResidual g) s = true ∧ hasNode (initResidual g) t = true
  · rw [if_pos hc] at h
    have hI0 : ResInv (initResidual g) (initResidual g) :=
      ⟨(initResidual_props g hg).2.1, initResidual_pairClosed hg,
        fun u v => rfl, initResidual_nonneg hg hnn, rfl⟩
    refine ffLoopHist_inv find s t (ResInv (initResidual g))
      (aug_preserves_resInv hsnd s t) lfuel (initResidual g) (some 0) []
      [initResidual g] res hI0 ?_ rfl h
    intro h2 hm
    have : h2 = initResidual g := by simpa using hm
    rw [this]
    exact hI0
  · rw [if_neg hc] at h
    cases h

/-- C1: along a breadth-first or depth-first max-flow run, every recorded
residual graph (after initialization and after each call to
update_residual_capacities) satisfies r(u,v) + r(v,u) = c(u,v) + c(v,u)
against the original capacities (absent pairs reading 0), and keeps every
residual capacity non-negative. -/
theorem c1_residual_invariants (g : RGraph α) (s t sfuel lfuel : ℕ) (res : HistRun α)
    (hg : WF g) (hnn : NonNeg g)
    (h : bfsComputeMaxFlowWithHistory g s t sfuel lfuel = .ok res ∨
         dfsComputeMaxFlowWithHistory g s t sfuel lfuel = .ok res) :
    ∀ rg ∈ res.residuals,
      (∀ u v, resCap rg u v + resCap rg v u = resCap g u v + resCap g v u) ∧
        ∀ u v, 0 ≤ resCap rg u v := by
  have hmain : ∀ rg ∈ res.residuals, ResInv (initResidual g) rg := by
    rcases h with h | h
    · exact (computeHist_resInv (bfs_finderSound sfuel) hg hnn h).1
    · exact (computeHist_resInv (dfs_finderSound sfuel) hg hnn h).1
  intro rg hrg
  obtain ⟨_, _, hsum, hnnr, _⟩ := hmain rg hrg
  exact ⟨fun u v => (hsum u v).trans (initResidual_sum hg u v), hnnr⟩

theorem c1_witness :
    (resCap c5res 0 1 + resCap c5res 1 0 = resCap gScenA 0 1 + resCap gScenA 1 0) ∧
      0 ≤ resCap c5res 0 1 := by
  have h := c1_residual_invariants gScenA 0 3 20 10 c5run (by unfold WF; decide)
    (nonNeg_of_entries (by decide)) (Or.inl rfl) c5res (by decide)
  exact ⟨h.1 0 1, h.2 0 1⟩

/-- C3: a path returned by the breadth-first find_augmenting_path is an
augmenting path of minimum edge count among all augmenting paths of the
current residual graph. -/
theorem c3_bfs_shortest {g : RGraph α} {s t : ℕ} {p : List ℕ} {fuel : ℕ}
    (hg : WF g) (h : bfsFindPath g s t fuel = .ok (some p)) :
    AugPath g s t p ∧ ∀ q, AugPath g s t q → p.length ≤ q.length := by
  obtain ⟨hap, _, _, hmin⟩ := bfsFindPath_sound hg h
  refine ⟨hap, fun q hq => ?_⟩
  obtain ⟨hqh, hql, hqp⟩ := hq
  have hs0 : s ∈ ball g s 0 := ball_zero.mpr rfl
  have ht : t ∈ ball g s (0 + (q.length - 1)) :=
    walk_mem_ball hg q s 0 hqh hs0 hqp t hql
  rw [Nat.zero_add] at ht
  have hplen := length_pos_of_head? hap.1
  have hqlen := length_pos_of_head? hqh
  by_contra hlt
  push_neg at hlt
  exact hmin.2 (q.length - 1) (by omega) ht

theorem c3_witness :
    AugPath (initResidual gScenA) 0 3 [0, 1, 3] ∧
      [0, 1, 3].length ≤ [0, 1, 2, 3].length := by
  have h := @c3_bfs_shortest ℤ _ (initResidual gScenA) 0 3 [0, 1, 3] 20
    (by unfold WF; decide) rfl
  exact ⟨h.1, h.2 [0, 1, 2, 3] (by unfold AugPath; decide)⟩


/-
Claim C5: idempotence on the final residual graph.
-/

theorem foldl_id_of_present {g : RGraph α} :
    ∀ {l : List (ℕ × ℕ × α)}, (∀ e ∈ l, hasEdgeB g e.2.1 e.1 = true) →
      l.foldl (fun acc e =>
        if hasEdgeB acc e.2.1 e.1 then acc else addEdge acc e.2.1 e.1 0) g = g
  | [], _ => rfl
  | e :: rest, h => by
    rw [List.foldl_cons, if_pos (h e (List.mem_cons_self e rest))]
    exact foldl_id_of_present fun e2 h2 => h e2 (List.mem_cons_of_mem e h2)

theorem initResidual_id {g : RGraph α} (hg : WF g) (hpc : PairClosed g) :
    initResidual g = g := by
  unfold initResidual
  apply foldl_id_of_present
  intro e he
  obtain ⟨u, v, c⟩ := e
  have hc : capOf g u v = some c := (mem_edgesList hg u v c).mp he
  apply hpc
  unfold hasEdgeB
  rw [hc]
  rfl

theorem computeHist_idem {find : Finder α} {g : RGraph α} {s t lfuel : ℕ}
    {res : HistRun α} (hsnd : FinderSound find) (hg : WF g) (hnn : NonNeg g)
    (h : computeMaxFlowWithHistory find g s t lfuel = .ok res) :
    ∃ rgF, res.residuals.getLast? = some rgF ∧
      ∀ k, computeMaxFlowWithHistory find rgF s t (k + 1) =
        .ok ⟨some 0, [], [rgF]⟩ := by
  have hnodes : hasNode (initResidual g) s = true ∧ hasNode (initResidual g) t = true := by
    unfold computeMaxFlowWithHistory at h
    by_cases hc : hasNode (initResidual g) s = true ∧ hasNode (initResidual g) t = true
    · exact hc
    · rw [if_neg hc] at h
      cases h
  obtain ⟨-, rgF, hlast, hI, hnone⟩ := computeHist_resInv hsnd hg hnn h
  obtain ⟨hwfF, hpcF, -, -, hkF⟩ := hI
  refine ⟨rgF, hlast, fun k => ?_⟩
  unfold computeMaxFlowWithHistory
  have hid : initResidual rgF = rgF := initResidual_id hwfF hpcF
  rw [hid]
  have hs : hasNode rgF s = true := by
    rw [hasNode_eq_of_keysOf hkF]
    exact hnodes.1
  have ht : hasNode rgF t = true := by
    rw [hasNode_eq_of_keysOf hkF]
    exact hnodes.2
  rw [if_pos ⟨hs, ht⟩, ffLoopHist, hnone]

/-- C5: taking the final residual graph of a completed run as a fresh
network and re-running the same strategy on the same source and sink yields
max_flow = 0, no augmenting paths, and only the initial residual snapshot. -/
theorem c5_idempotent (g : RGraph α) (s t sfuel lfuel : ℕ) (res : HistRun α)
    (hg : WF g) (hnn : NonNeg g) :
    (bfsComputeMaxFlowWithHistory g s t sfuel lfuel = .ok res →
      ∃ rgF, res.residuals.getLast? = some rgF ∧
        ∀ k, bfsComputeMaxFlowWithHistory rgF s t sfuel (k + 1) =
          .ok ⟨some 0, [], [rgF]⟩) ∧
    (dfsComputeMaxFlowWithHistory g s t sfuel lfuel = .ok res →
      ∃ rgF, res.residuals.getLast? = some rgF ∧
        ∀ k, dfsComputeMaxFlowWithHistory rgF s t sfuel (k + 1) =
          .ok ⟨some 0, [], [rgF]⟩) :=
  ⟨fun h => computeHist_idem (bfs_finderSound sfuel) hg hnn h,
   fun h => computeHist_idem (dfs_finderSound sfuel) hg hnn h⟩

theorem c5_witness :
    bfsComputeMaxFlowWithHistory c5res 0 3 20 1 = .ok ⟨some 0, [], [c5res]⟩ := by
  obtain ⟨rgF, hlast, hall⟩ := (c5_idempotent gScenA 0 3 20 10 c5run
    (by unfold WF; decide) (nonNeg_of_entries (by decide))).1 rfl
  have hre : c5run.residuals.getLast? = some c5res := rfl
  rw [hre] at hlast
  injection hlast with hlast
  rw [hlast]
  exact hall 0


/-
Claim C2: path combinatorics for the augmentation accounting.
-/

theorem consecPairs_fst_unique :
    ∀ {p : List ℕ}, p.Nodup → ∀ {w v1 v2 : ℕ},
      (w, v1) ∈ consecPairs p → (w, v2) ∈ consecPairs p → v1 = v2
  | [], _, w, v1, v2, h1, _ => absurd h1 (by simp [consecPairs])
  | [a], _, w, v1, v2, h1, _ => absurd h1 (by simp [consecPairs])
  | a :: b :: rest, hnd, w, v1, v2, h1, h2 => by
    have hab : a ∉ b :: rest := (List.nodup_cons.mp hnd).1
    rw [consecPairs] at h1 h2
    rcases List.mem_cons.mp h1 with h3 | h3 <;>
      rcases List.mem_cons.mp h2 with h4 | h4
    · injection h3 with h3a h3b
      injection h4 with h4a h4b
      rw [h3b, h4b]
    · injection h3 with h3a h3b
      exact absurd (h3a ▸ (mem_consecPairs_mem h4).1) hab
    · injection h4 with h4a h4b
      exact absurd (h4a ▸ (mem_consecPairs_mem h3).1) hab
    · exact consecPairs_fst_unique (List.nodup_cons.mp hnd).2 h3 h4

theorem consecPairs_snd_unique :
    ∀ {p : List ℕ}, p.Nodup → ∀ {w u1 u2 : ℕ},
      (u1, w) ∈ consecPairs p → (u2, w) ∈ consecPairs p → u1 = u2
  | [], _, w, u1, u2, h1, _ => absurd h1 (by simp [consecPairs])
  | [a], _, w, u1, u2, h1, _ => absurd h1 (by simp [consecPairs])
  | a :: b :: rest, hnd, w, u1, u2, h1, h2 => by
    have hb : b ∉ rest := (List.nodup_cons.mp (List.nodup_cons.mp hnd).2).1
    rw [consecPairs] at h1 h2
    rcases List.mem_cons.mp h1 with h3 | h3 <;>
      rcases List.mem_cons.mp h2 with h4 | h4
    · injection h3 with h3a h3b
      injection h4 with h4a h4b
      rw [h3a, h4a]
    · injection h3 with h3a h3b
      have h5 : w ∈ rest := by simpa using (mem_consecPairs h4).2
      rw [h3b] at h5
      exact absurd h5 hb
    · injection h4 with h4a h4b
      have h5 : w ∈ rest := by simpa using (mem_consecPairs h3).2
      rw [h4b] at h5
      exact absurd h5 hb
    · exact consecPairs_snd_unique (List.nodup_cons.mp hnd).2 h3 h4

theorem consecPairs_head_no_pred {p : List ℕ} (hnd : p.Nodup) {s : ℕ}
    (hh : p.head? = some s) : ∀ u, (u, s) ∉ consecPairs p := by
  intro u hmem
  have h2 := (mem_consecPairs hmem).2
  cases p with
  | nil => cases hh
  | cons a rest =>
    rw [List.head?_cons, Option.some.injEq] at hh
    rw [List.tail_cons] at h2
    rw [← hh] at h2
    exact (List.nodup_cons.mp hnd).1 h2

theorem consecPairs_last_no_succ :
    ∀ {p : List ℕ}, p.Nodup → ∀ {t : ℕ}, p.getLast? = some t →
      ∀ v, (t, v) ∉ consecPairs p
  | [], _, t, hl, v, hm => by cases hl
  | [a], _, t, hl, v, hm => by simp [consecPairs] at hm
  | a :: b :: rest, hnd, t, hl, v, hm => by
    have hab : a ∉ b :: rest := (List.nodup_cons.mp hnd).1
    rw [List.getLast?_cons_cons] at hl
    have htm : t ∈ b :: rest := getLast?_mem hl
    rw [consecPairs] at hm
    rcases List.mem_cons.mp hm with h1 | h1
    · injection h1 with h1a h1b
      rw [h1a] at htm
      exact hab htm
    · exact consecPairs_last_no_succ (List.nodup_cons.mp hnd).2 hl v h1

theorem consecPairs_succ_exists :
    ∀ {p : List ℕ} {w t : ℕ}, w ∈ p → p.getLast? = some t → w ≠ t →
      ∃ v, (w, v) ∈ consecPairs p
  | [], w, t, hw, _, _ => absurd hw (List.not_mem_nil w)
  | [a], w, t, hw, hl, hwt => by
    rw [List.getLast?_singleton, Option.some.injEq] at hl
    rw [List.mem_singleton] at hw
    exact absurd (hw.trans hl) hwt
  | a :: b :: rest, w, t, hw, hl, hwt => by
    rw [List.getLast?_cons_cons] at hl
    rcases List.mem_cons.mp hw with h1 | h1
    · exact ⟨b, by rw [consecPairs, h1]; exact List.mem_cons_self _ _⟩
    · rcases consecPairs_succ_exists h1 hl hwt with ⟨v, hv⟩
      exact ⟨v, by rw [consecPairs]; exact List.mem_cons_of_mem _ hv⟩

theorem consecPairs_pred_of_tail :
    ∀ {p : List ℕ} {w : ℕ}, w ∈ p.tail → ∃ u, (u, w) ∈ consecPairs p
  | [], w, hw => absurd hw (List.not_mem_nil w)
  | [a], w, hw => absurd (by simpa using hw) (List.not_mem_nil w)
  | a :: b :: rest, w, hw => by
    rw [List.tail_cons] at hw
    rcases List.mem_cons.mp hw with h1 | h1
    · exact ⟨a, by rw [consecPairs, h1]; exact List.mem_cons_self _ _⟩
    · rcases @consecPairs_pred_of_tail (b :: rest) w (by simpa using h1) with ⟨u, hu⟩
      exact ⟨u, by rw [consecPairs]; exact List.mem_cons_of_mem _ hu⟩

theorem consecPairs_pred_exists {p : List ℕ} {w s : ℕ} (hw : w ∈ p)
    (hh : p.head? = some s) (hws : w ≠ s) : ∃ u, (u, w) ∈ consecPairs p := by
  cases p with
  | nil => cases hh
  | cons a rest =>
    rw [List.head?_cons, Option.some.injEq] at hh
    rcases List.mem_cons.mp hw with h1 | h1
    · exact absurd (h1.trans hh) hws
    · exact consecPairs_pred_of_tail (by simpa using h1)


/-
Claim C2: flow-value accounting and cut duality.
-/

theorem eq_zero_of_add_self {a : α} (h : a + a = 0) : a = 0 := by
  by_contra hne
  rcases lt_or_gt_of_ne hne with h1 | h1
  · have h2 : a + a < 0 + 0 := add_lt_add h1 h1
    rw [add_zero, h] at h2
    exact lt_irrefl 0 h2
  · have h2 : (0 : α) + 0 < a + a := add_lt_add h1 h1
    rw [add_zero, h] at h2
    exact lt_irrefl 0 h2

theorem netFlow_skew {rg0 rg : RGraph α} (hsum : SumInv rg0 rg) (u v : ℕ) :
    netFlow rg0 rg u v + netFlow rg0 rg v u = 0 := by
  unfold netFlow
  rw [sub_add_sub_comm, ← hsum u v, sub_self]

theorem sum_netFlow_self_zero {rg0 rg : RGraph α} (hsum : SumInv rg0 rg)
    (S : Finset ℕ) : ∑ u ∈ S, ∑ v ∈ S, netFlow rg0 rg u v = 0 := by
  have hswap : (∑ u ∈ S, ∑ v ∈ S, netFlow rg0 rg u v)
      = ∑ u ∈ S, ∑ v ∈ S, netFlow rg0 rg v u := Finset.sum_comm
  have h2 : (∑ u ∈ S, ∑ v ∈ S, (netFlow rg0 rg u v + netFlow rg0 rg v u)) = 0 :=
    Finset.sum_eq_zero fun u _ => Finset.sum_eq_zero fun v _ => netFlow_skew hsum u v
  have h3 : (∑ u ∈ S, ∑ v ∈ S, (netFlow rg0 rg u v + netFlow rg0 rg v u))
      = (∑ u ∈ S, ∑ v ∈ S, netFlow rg0 rg u v)
        + ∑ u ∈ S, ∑ v ∈ S, netFlow rg0 rg v u := by
    rw [← Finset.sum_add_distrib]
    exact Finset.sum_congr rfl fun u _ => Finset.sum_add_distrib
  apply eq_zero_of_add_self
  nth_rewrite 2 [hswap]
  rw [← h3, h2]

theorem excess_eq_cut_netflow {rg0 rg : RGraph α} {V S : Finset ℕ} {s t : ℕ}
    (hsum : SumInv rg0 rg) (hcons : Conserved V rg0 rg s t)
    (hSV : S ⊆ V) (hsS : s ∈ S) (htS : t ∉ S) :
    excessAt V rg0 rg s = ∑ u ∈ S, ∑ v ∈ V \ S, netFlow rg0 rg u v := by
  have h1 : (∑ u ∈ S, excessAt V rg0 rg u) = excessAt V rg0 rg s := by
    apply Finset.sum_eq_single_of_mem s hsS
    intro b hb hbs
    exact hcons b (hSV hb) hbs fun hbt => htS (hbt ▸ hb)
  rw [← h1]
  unfold excessAt
  calc (∑ u ∈ S, ∑ v ∈ V, netFlow rg0 rg u v)
      = ∑ u ∈ S, (∑ v ∈ V \ S, netFlow rg0 rg u v + ∑ v ∈ S, netFlow rg0 rg u v) :=
        Finset.sum_congr rfl fun u _ => (Finset.sum_sdiff hSV).symm
    _ = (∑ u ∈ S, ∑ v ∈ V \ S, netFlow rg0 rg u v)
          + ∑ u ∈ S, ∑ v ∈ S, netFlow rg0 rg u v := Finset.sum_add_distrib
    _ = ∑ u ∈ S, ∑ v ∈ V \ S, netFlow rg0 rg u v := by
        rw [sum_netFlow_self_zero hsum S, add_zero]

theorem netflow_cut_le {rg0 rg : RGraph α} {V S : Finset ℕ} (hnn : NonNeg rg) :
    (∑ u ∈ S, ∑ v ∈ V \ S, netFlow rg0 rg u v) ≤ cutCap V S rg0 := by
  unfold cutCap
  refine Finset.sum_le_sum fun u _ => Finset.sum_le_sum fun v _ => ?_
  unfold netFlow
  exact sub_le_self _ (hnn u v)

theorem netflow_cut_eq {rg0 rg : RGraph α} {V S : Finset ℕ}
    (hzero : ∀ u ∈ S, ∀ v ∈ V \ S, resCap rg u v = 0) :
    (∑ u ∈ S, ∑ v ∈ V \ S, netFlow rg0 rg u v) = cutCap V S rg0 := by
  unfold cutCap
  refine Finset.sum_congr rfl fun u hu => Finset.sum_congr rfl fun v hv => ?_
  unfold netFlow
  rw [hzero u hu v hv, sub_zero]

theorem sum_ite_unique {V : Finset ℕ} {P : ℕ → Prop} [DecidablePred P] (q : α)
    {v0 : ℕ} (h0 : P v0) (hv0 : v0 ∈ V) (huniq : ∀ v, P v → v = v0) :
    (∑ v ∈ V, if P v then q else 0) = q := by
  calc (∑ v ∈ V, if P v then q else 0)
      = if P v0 then q else 0 :=
        Finset.sum_eq_single_of_mem v0 hv0
          fun c hc hne => if_neg fun hPc => hne (huniq c hPc)
    _ = q := if_pos h0

theorem sum_ite_empty {V : Finset ℕ} {P : ℕ → Prop} [DecidablePred P] (q : α)
    (h : ∀ v, ¬ P v) : (∑ v ∈ V, if P v then q else 0) = 0 :=
  Finset.sum_eq_zero fun v _ => if_neg (h v)

theorem consecPairs_ne_nil {p : List ℕ} {s t : ℕ} (hh : p.head? = some s)
    (hl : p.getLast? = some t) (hst : s ≠ t) : consecPairs p ≠ [] := by
  cases p with
  | nil => cases hh
  | cons a rest =>
    cases rest with
    | nil =>
      rw [List.head?_cons, Option.some.injEq] at hh
      rw [List.getLast?_singleton, Option.some.injEq] at hl
      exact absurd (hh.symm.trans hl) hst
    | cons b rest2 =>
      rw [consecPairs]
      simp


theorem aug_excess_delta {rg0 rg rg' : RGraph α} {p : List ℕ} {q : α}
    {V : Finset ℕ} {s t : ℕ} (hpc : PairClosed rg)
    (hpath : ∀ uv ∈ consecPairs p, 0 < resCap rg uv.1 uv.2) (hnd : p.Nodup)
    (hupd : updateResidual rg p q = .ok rg')
    (hhead : p.head? = some s) (hlast : p.getLast? = some t) (hst : s ≠ t)
    (hmemV : ∀ x ∈ p, x ∈ V) :
    ∀ w, excessAt V rg0 rg' w = excessAt V rg0 rg w +
      (if w = s then q else if w = t then -q else 0) := by
  intro w
  have hcases := update_resCap_cases hpc hpath hnd hupd
  have hterm : ∀ v, netFlow rg0 rg' w v = netFlow rg0 rg w v
      + ((if (w, v) ∈ consecPairs p then q else 0)
        - if (v, w) ∈ consecPairs p then q else 0) := by
    intro v
    unfold netFlow
    rw [hcases w v]
    by_cases h1 : (w, v) ∈ consecPairs p
    · rw [if_pos h1, if_pos h1, if_neg (consecPairs_no_swap hnd h1)]
      abel
    · rw [if_neg h1, if_neg h1]
      by_cases h2 : (v, w) ∈ consecPairs p
      · rw [if_pos h2, if_pos h2]
        abel
      · rw [if_neg h2, if_neg h2]
        abel
  unfold excessAt
  rw [Finset.sum_congr rfl fun v _ => hterm v, Finset.sum_add_distrib,
    Finset.sum_sub_distrib]
  by_cases hw1 : w = s
  · rcases consecPairs_succ_exists (hw1 ▸ head?_mem hhead) hlast (hw1 ▸ hst)
      with ⟨v0, hv0⟩
    rw [sum_ite_unique q hv0 (hmemV v0 (mem_consecPairs_mem hv0).2)
        fun v hv => consecPairs_fst_unique hnd hv hv0,
      sum_ite_empty q fun u hu => consecPairs_head_no_pred hnd hhead u
        (by rw [← hw1]; exact hu),
      if_pos hw1, sub_zero]
  · by_cases hw2 : w = t
    · rcases consecPairs_pred_exists (hw2 ▸ getLast?_mem hlast) hhead
        (hw2 ▸ fun h => hst h.symm) with ⟨u0, hu0⟩
      rw [sum_ite_empty q fun v hv => consecPairs_last_no_succ hnd hlast v
          (by rw [← hw2]; exact hv),
        sum_ite_unique q hu0 (hmemV u0 (mem_consecPairs_mem hu0).1)
          fun u hu => consecPairs_snd_unique hnd hu hu0,
        if_neg hw1, if_pos hw2]
      abel
    · by_cases hwp : w ∈ p
      · rcases consecPairs_succ_exists hwp hlast hw2 with ⟨v0, hv0⟩
        rcases consecPairs_pred_exists hwp hhead hw1 with ⟨u0, hu0⟩
        rw [sum_ite_unique q hv0 (hmemV v0 (mem_consecPairs_mem hv0).2)
            fun v hv => consecPairs_fst_unique hnd hv hv0,
          sum_ite_unique q hu0 (hmemV u0 (mem_consecPairs_mem hu0).1)
            fun u hu => consecPairs_snd_unique hnd hu hu0,
          if_neg hw1, if_neg hw2, sub_self, add_zero]
      · rw [sum_ite_empty q fun v hv => hwp (mem_consecPairs_mem hv).1,
          sum_ite_empty q fun u hu => hwp (mem_consecPairs_mem hu).2,
          if_neg hw1, if_neg hw2, sub_self, add_zero]


theorem ffLoop_value {find : Finder α} {rg0 : RGraph α} {s t : ℕ}
    (hsnd : FinderSound find) (hst : s ≠ t) :
    ∀ (fuel : ℕ) (rg : RGraph α) (m : α) (v : Flow α),
      ResInv rg0 rg → Conserved (nodesFinset rg0) rg0 rg s t →
      m = excessAt (nodesFinset rg0) rg0 rg s →
      ffLoop find s t fuel rg (some m) = .ok v →
      ∃ rgF, ResInv rg0 rgF ∧ Conserved (nodesFinset rg0) rg0 rgF s t ∧
        v = some (excessAt (nodesFinset rg0) rg0 rgF s) ∧
        find rgF s t = .ok none := by
  intro fuel
  induction fuel with
  | zero => intro rg m v _ _ _ h; cases h
  | succ fuel ih =>
    intro rg m v hI hcons hm h
    rw [ffLoop] at h
    cases hf : find rg s t with
    | error e => rw [hf] at h; cases h
    | ok r =>
      rw [hf] at h
      cases r with
      | none =>
        simp only at h
        have hv : v = some m := by cases h; rfl
        exact ⟨rg, hI, hcons, by rw [hv, hm], hf⟩
      | some p =>
        simp only at h
        obtain ⟨hwf, hpc, hsum, hnn, hkeys⟩ := hI
        obtain ⟨hap, hnd, hnodes⟩ := hsnd rg s t p hwf hf
        cases hfm : findMinCapacity rg p with
        | error e => rw [hfm] at h; cases h
        | ok fv =>
          rw [hfm] at h
          cases fv with
          | none =>
            exact (findMinCapacity_not_none
              (consecPairs_ne_nil hap.1 hap.2.1 hst) hfm).elim
          | some q =>
            simp only at h
            cases hu : updateResidual rg p q with
            | error e => rw [hu] at h; cases h
            | ok rg1 =>
              rw [hu] at h
              have hI1 := aug_preserves_inv hwf hpc hsum hnn hkeys hap.2.2 hnd hfm hu
              have hmemV : ∀ x ∈ p, x ∈ nodesFinset rg0 := by
                intro x hx
                have h2 : hasNode rg0 x = true := by
                  rw [← hasNode_eq_of_keysOf hkeys x]
                  exact hnodes x hx
                exact List.mem_toFinset.mpr (hasNode_iff_mem.mp h2)
              have hdelta := @aug_excess_delta α _ rg0 rg rg1 p q (nodesFinset rg0)
                s t hpc hap.2.2 hnd hu hap.1 hap.2.1 hst hmemV
              have hcons1 : Conserved (nodesFinset rg0) rg0 rg1 s t := by
                intro w hw hws hwt
                rw [hdelta w, if_neg hws, if_neg hwt, add_zero]
                exact hcons w hw hws hwt
              have h2 : ffLoop find s t fuel rg1 (some (m + q)) = .ok v := h
              refine ih rg1 (m + q) v
                ⟨hI1.1, hI1.2.1, hI1.2.2.1, hI1.2.2.2.1, hI1.2.2.2.2⟩ hcons1 ?_ h2
              rw [hdelta s, if_pos rfl, hm]

theorem computeMaxFlow_value {find : Finder α} {g : RGraph α} {s t lfuel : ℕ}
    {v : Flow α} (hsnd : FinderSound find) (hg : WF g) (hnn : NonNeg g) (hst : s ≠ t)
    (h : computeMaxFlow find g s t lfuel = .ok v) :
    hasNode (initResidual g) s = true ∧ hasNode (initResidual g) t = true ∧
      ∃ rgF, ResInv (initResidual g) rgF ∧
        Conserved (nodesFinset (initResidual g)) (initResidual g) rgF s t ∧
        v = some (excessAt (nodesFinset (initResidual g)) (initResidual g) rgF s) ∧
        find rgF s t = .ok none := by
  unfold computeMaxFlow at h
  by_cases hc : hasNode (initResidual g) s = true ∧ hasNode (initResidual g) t = true
  · rw [if_pos hc] at h
    have hI0 : ResInv (initResidual g) (initResidual g) :=
      ⟨(initResidual_props g hg).2.1, initResidual_pairClosed hg,
        fun u v => rfl, initResidual_nonneg hg hnn, rfl⟩
    have hcons0 : Conserved (nodesFinset (initResidual g)) (initResidual g)
        (initResidual g) s t := fun w _ _ _ =>
      Finset.sum_eq_zero fun x _ => sub_self _
    have h0 : (0 : α) = excessAt (nodesFinset (initResidual g)) (initResidual g)
        (initResidual g) s :=
      (Finset.sum_eq_zero fun x _ => sub_self _).symm
    exact ⟨hc.1, hc.2, ffLoop_value hsnd hst lfuel (initResidual g) 0 v hI0 hcons0 h0 h⟩
  · rw [if_neg hc] at h
    cases h


theorem cut_sandwich {rg0 rgA rgB : RGraph α} {s t : ℕ} {S : Finset ℕ}
    (hsumA : SumInv rg0 rgA) (hnnA : NonNeg rgA)
    (hconsA : Conserved (nodesFinset rg0) rg0 rgA s t)
    (hsumB : SumInv rg0 rgB) (hnnB : NonNeg rgB)
    (hconsB : Conserved (nodesFinset rg0) rg0 rgB s t)
    (hsV : s ∈ nodesFinset rg0) (hsS : s ∈ S) (htS : t ∉ S)
    (hcl : ∀ u ∈ S, ∀ w, 0 < resCap rgA u w → w ∈ S) :
    excessAt (nodesFinset rg0) rg0 rgB s ≤ excessAt (nodesFinset rg0) rg0 rgA s := by
  have hSV : S ∩ nodesFinset rg0 ⊆ nodesFinset rg0 := Finset.inter_subset_right
  have hsS2 : s ∈ S ∩ nodesFinset rg0 := Finset.mem_inter.mpr ⟨hsS, hsV⟩
  have htS2 : t ∉ S ∩ nodesFinset rg0 := fun hmem => htS (Finset.mem_inter.mp hmem).1
  have hzero : ∀ u ∈ S ∩ nodesFinset rg0,
      ∀ v ∈ nodesFinset rg0 \ (S ∩ nodesFinset rg0), resCap rgA u v = 0 := by
    intro u hu v hv
    rcases Finset.mem_sdiff.mp hv with ⟨hvV, hvn⟩
    by_contra hne
    have hpos : 0 < resCap rgA u v := lt_of_le_of_ne (hnnA u v) (Ne.symm hne)
    exact hvn (Finset.mem_inter.mpr ⟨hcl u (Finset.mem_inter.mp hu).1 v hpos, hvV⟩)
  have hA : excessAt (nodesFinset rg0) rg0 rgA s
      = cutCap (nodesFinset rg0) (S ∩ nodesFinset rg0) rg0 :=
    (excess_eq_cut_netflow hsumA hconsA hSV hsS2 htS2).trans (netflow_cut_eq hzero)
  have hB : excessAt (nodesFinset rg0) rg0 rgB s
      ≤ cutCap (nodesFinset rg0) (S ∩ nodesFinset rg0) rg0 := by
    calc excessAt (nodesFinset rg0) rg0 rgB s
        = ∑ u ∈ S ∩ nodesFinset rg0, ∑ v ∈ nodesFinset rg0 \ (S ∩ nodesFinset rg0),
            netFlow rg0 rgB u v := excess_eq_cut_netflow hsumB hconsB hSV hsS2 htS2
      _ ≤ cutCap (nodesFinset rg0) (S ∩ nodesFinset rg0) rg0 := netflow_cut_le hnnB
  rw [hA]
  exact hB

/-- C2: for a well-formed network with non-negative capacities and
source ≠ sink, whenever both the breadth-first and the depth-first
compute_max_flow complete, they return the same max-flow value (their path
sequences may differ). -/
theorem c2_strategy_independence (g : RGraph α) (s t sfuel1 sfuel2 lfuel1 lfuel2 : ℕ)
    (v1 v2 : Flow α) (hg : WF g) (hnn : NonNeg g) (hst : s ≠ t)
    (h1 : bfsComputeMaxFlow g s t sfuel1 lfuel1 = .ok v1)
    (h2 : dfsComputeMaxFlow g s t sfuel2 lfuel2 = .ok v2) :
    v1 = v2 := by
  obtain ⟨hsn, -, rgF1, hI1, hcons1, hv1, hnone1⟩ :=
    computeMaxFlow_value (bfs_finderSound sfuel1) hg hnn hst h1
  obtain ⟨-, -, rgF2, hI2, hcons2, hv2, hnone2⟩ :=
    computeMaxFlow_value (dfs_finderSound sfuel2) hg hnn hst h2
  have hsV : s ∈ nodesFinset (initResidual g) :=
    List.mem_toFinset.mpr (hasNode_iff_mem.mp hsn)
  obtain ⟨S1, hs1S, ht1S, hcl1⟩ := bfsFindPath_none_cut hI1.1 hnone1
  obtain ⟨S2, hs2S, ht2S, hcl2⟩ := dfsFindPath_none_cut hI2.1 hnone2
  have hle21 := cut_sandwich hI1.2.2.1 hI1.2.2.2.1 hcons1
    hI2.2.2.1 hI2.2.2.2.1 hcons2 hsV hs1S ht1S hcl1
  have hle12 := cut_sandwich hI2.2.2.1 hI2.2.2.2.1 hcons2
    hI1.2.2.1 hI1.2.2.2.1 hcons1 hsV hs2S ht2S hcl2
  rw [hv1, hv2]
  exact congrArg some (le_antisymm hle12 hle21)

theorem c2_witness : ∃ v1 v2 : Flow ℤ,
    bfsComputeMaxFlow gScenA 0 3 20 10 = .ok v1 ∧
      dfsComputeMaxFlow gScenA 0 3 20 10 = .ok v2 ∧ v1 = v2 :=
  ⟨some 13, some 13, rfl, rfl,
    c2_strategy_independence gScenA 0 3 20 20 10 10 (some 13) (some 13)
      (by unfold WF; decide) (nonNeg_of_entries (by decide)) (by decide) rfl rfl⟩

end MaxFlowRepo
